import Mathlib

/-!
Verification of the LogQuery engine.

This file is a shallow embedding of `logquery/log_query.py` (class
`LogQuery`) in Lean 4, together with theorems about its behaviour.

Modelling conventions:
* Python dicts become association lists in insertion order; `d[k]`
  lookup, `d[k] = v` assignment and in-place value mutation are the
  `lookup?`, `dictSet` and `updateVal` functions below.
* `sortedcontainers.SortedList(key=...)` becomes a plain list kept in
  non-decreasing key order by `sortedKeyAdd` (the library inserts at
  `bisect_right`, i.e. after all equal keys).
* The `heapq` heap becomes a list kept sorted by the Python tuple order
  of its items; `heappop` is taking the head, which is exactly the
  minimum `heappop` returns.
* `datetime` values are represented canonically by their epoch seconds
  (the spec's canonical timestamp representation), so
  `LogQuery._to_epoch_seconds` is the identity on that representation.
  `datetime.strptime(s, "%Y-%m-%d %H:%M:%S")` composed with the epoch
  conversion is an oracle parameter `stp : String → Option Int`
  (`none` models the `ValueError` strptime raises).
* File contents (`AliceLib` downloads, `open`, `linecache`) are an
  environment parameter `env : String → List String` mapping a local
  path to the list of its lines (with their trailing newlines).
* Fallible Python code returns `Except QueryError` / `Option QueryError`;
  each constructor of `QueryError` names the Python exception it stands
  for.
-/

deriving instance DecidableEq for Except

namespace LogQueryVerif

/-- Python dict lookup `d[k]` as an option (`none` models a `KeyError`). -/
def lookup? {κ α : Type} [DecidableEq κ] (k : κ) : List (κ × α) → Option α
  | [] => none
  | p :: ps => if p.1 = k then some p.2 else lookup? k ps

/-- Python dict assignment `d[k] = v`: replace the value in place if the
key exists, otherwise append the new key at the end (dict insertion
order). -/
def dictSet {κ α : Type} [DecidableEq κ] (k : κ) (v : α) : List (κ × α) → List (κ × α)
  | [] => [(k, v)]
  | p :: ps => if p.1 = k then (k, v) :: ps else p :: dictSet k v ps

/-- In-place mutation of the value stored at key `k` (for example
`d[k].add(x)`).  A no-op when the key is absent; the callers below only
use it on keys that are present. -/
def updateVal {κ α : Type} [DecidableEq κ] (k : κ) (f : α → α) : List (κ × α) → List (κ × α)
  | [] => []
  | p :: ps => if p.1 = k then (k, f p.2) :: ps else p :: updateVal k f ps

/-- `sortedcontainers.SortedKeyList.add`: insert `x` after every element
whose key is less than or equal to the key of `x` (the library inserts
at `bisect_right` of the key). -/
def sortedKeyAdd {α : Type} (key : α → Int) (x : α) : List α → List α
  | [] => [x]
  | y :: ys => if key y ≤ key x then y :: sortedKeyAdd key x ys else x :: y :: ys

/-- `SortedKeyList.bisect_left v`: the rank of the first element whose
key is at least `key v`.  On the sorted lists built by `sortedKeyAdd`
this is the index the library's binary search returns. -/
def bisectLeftKey {α : Type} (key : α → Int) (k : Int) : List α → Nat
  | [] => 0
  | y :: ys => if key y < k then bisectLeftKey key k ys + 1 else 0

/-- Split a character list at the last occurrence of `c`:
`splitLast c l = some (b, a)` exactly when `l = b ++ c :: a` with
`c ∉ a`. -/
def splitLast (c : Char) : List Char → Option (List Char × List Char)
  | [] => none
  | x :: xs =>
    match splitLast c xs with
    | some (b, a) => some (x :: b, a)
    | none => if x = c then some ([], xs) else none

/-- Split a character list at the last occurrence of the two-character
pattern `][`: `some (b, a)` exactly when `l = b ++ ']' :: '[' :: a` at
the last such position. -/
def splitLastBrack : List Char → Option (List Char × List Char)
  | [] => none
  | [_] => none
  | x :: y :: xs =>
    match splitLastBrack (y :: xs) with
    | some (b, a) => some (x :: b, a)
    | none => if x = ']' ∧ y = '[' then some ([], xs) else none

/-- Errors the Python code can raise on the modelled control paths.  The
Python exception each constructor stands for is noted. -/
inductive QueryError : Type
  /-- `KeyError` on a dict lookup (`self._server_to_remote_file[server]`
  or `self._server_to_local_file[server]`).  For the configuration dict
  this is the condition the spec calls `UnconfiguredSourceError`. -/
  | keyError (key : String)
  /-- `IndexError` from `self._server_index[server][idx]` when `search`
  seeds the heap past the end of a source index. -/
  | indexError
  /-- `AttributeError` from `m.group(1)` when `re.match` returned `None`
  in `_parse_line`; the condition the spec calls `MalformedLineError`. -/
  | malformedLine
  /-- `AttributeError` from `getattr(logging, severity_string.upper())`
  in `_get_line_metadata`; the condition the spec calls
  `UnknownSeverityError`. -/
  | unknownSeverity
  /-- `ValueError` from `datetime.datetime.strptime`. -/
  | valueError
  /-- `TypeError`, either from hashing an unhashable severity value (the
  `logging._STYLES` dict) in the `severity not in self._severity_index`
  test of `_add_to_severity_index`, or from `severity >= min_severity`
  in `search` when a severity key is not an integer. -/
  | typeError
deriving DecidableEq, Repr

/-- `LogQuery._parse_line`: `re.match(r'\[(.*)\]\[(.*)\](.*)', line)`
with CPython's greedy backtracking, then the three groups.  Since `.`
does not match a newline, the whole match lives inside the maximal
newline-free prefix after the initial `[`; the first group ends at the
last `][` that still leaves a later `]`, which is the last `][` before
the last `]`, and the second group ends at that last `]`. -/
def parse_line (line : String) : Except QueryError (String × String × String) :=
  match line.data with
  | x :: rest =>
    if x = '[' then
      match splitLast ']' (rest.takeWhile (fun c => c ≠ '\n')) with
      | none => .error .malformedLine
      | some (U, C) =>
        match splitLastBrack U with
        | none => .error .malformedLine
        | some (A, B) => .ok (String.mk A, String.mk B, String.mk C)
    else .error .malformedLine
  | [] => .error .malformedLine

/-- A Python value as far as this code observes it: an `int`, a `str`,
or the `logging._STYLES` dict (the three kinds of attribute of the
`logging` module whose name is a fixed point of `str.upper`). -/
inductive PyVal : Type
  | int (n : Int)
  | str (s : String)
  /-- The `logging._STYLES` dict.  The code never looks inside it; all
  that matters is that it is unhashable and not orderable against an
  `int`, so it is modelled as an opaque constant. -/
  | stylesDict
deriving DecidableEq, Repr

/-- Whether the value is hashable in Python: `int` and `str` are, a
`dict` is not. -/
def PyVal.hashable : PyVal → Bool
  | .stylesDict => false
  | _ => true

/-- The attributes of CPython's `logging` module whose name is a fixed
point of `str.upper` — the only attributes
`getattr(logging, severity_string.upper())` can reach, since the
looked-up name is an uppercased string.  Besides the level constants
these are `BASIC_FORMAT` (a format string) and `_STYLES` (a dict,
`logging/__init__.py`); every other module-level name of `logging`
contains a lower-case letter. -/
def loggingUpperAttrs : List (String × PyVal) :=
  [("CRITICAL", .int 50), ("FATAL", .int 50), ("ERROR", .int 40),
   ("WARNING", .int 30), ("WARN", .int 30), ("INFO", .int 20),
   ("DEBUG", .int 10), ("NOTSET", .int 0),
   ("BASIC_FORMAT", .str "%(levelname)s:%(name)s:%(message)s"),
   ("_STYLES", .stylesDict)]

/-- The uppercase image of one character under Python `str.upper`,
which applies the Unicode full uppercase mapping to each character
independently (an image may be several characters long, e.g. `ß` to
`SS`).  The mapping below reproduces Python exactly on every character
whose uppercase image consists of ASCII characters only — the
lower-case ASCII letters and the ten listed code points — and maps
every other character to itself.  Python uppercases every other
character to a string that still contains a non-ASCII character, so
both images fail to equal a pure-ASCII attribute name and the identity
is interchangeable with the true mapping for the lookups this code
performs. -/
def pyUpperChar (c : Char) : List Char :=
  if 0x61 ≤ c.toNat ∧ c.toNat ≤ 0x7a then [Char.ofNat (c.toNat - 32)]
  else if c.toNat = 0xdf then ['S', 'S'] -- ß, LATIN SMALL LETTER SHARP S
  else if c.toNat = 0x131 then ['I'] -- ı, LATIN SMALL LETTER DOTLESS I
  else if c.toNat = 0x17f then ['S'] -- ſ, LATIN SMALL LETTER LONG S
  else if c.toNat = 0xfb00 then ['F', 'F'] -- LATIN SMALL LIGATURE FF
  else if c.toNat = 0xfb01 then ['F', 'I'] -- LATIN SMALL LIGATURE FI
  else if c.toNat = 0xfb02 then ['F', 'L'] -- LATIN SMALL LIGATURE FL
  else if c.toNat = 0xfb03 then ['F', 'F', 'I'] -- LATIN SMALL LIGATURE FFI
  else if c.toNat = 0xfb04 then ['F', 'F', 'L'] -- LATIN SMALL LIGATURE FFL
  else if c.toNat = 0xfb05 then ['S', 'T'] -- LATIN SMALL LIGATURE LONG S T
  else if c.toNat = 0xfb06 then ['S', 'T'] -- LATIN SMALL LIGATURE ST
  else [c]

/-- `str.upper` on a string: the concatenation of the per-character
uppercase images. -/
def pyUpper (s : String) : String :=
  String.mk (s.data.flatMap pyUpperChar)

/-- The reflective severity lookup
`getattr(logging, severity_string.upper())` in `_get_line_metadata`. -/
def getSeverityAttr (severity_string : String) : Except QueryError PyVal :=
  match lookup? (pyUpper severity_string) loggingUpperAttrs with
  | some v => .ok v
  | none => .error .unknownSeverity

/-- `LogQuery._get_line_metadata`: parse the line, resolve the severity
via `getattr` (before the timestamp is parsed, as in the source), then
parse the timestamp with the strptime oracle `stp`. -/
def get_line_metadata (stp : String → Option Int) (line : String) :
    Except QueryError (Int × PyVal) :=
  match parse_line line with
  | .error e => .error e
  | .ok (datetime_string, severity_string, _) =>
    match getSeverityAttr severity_string with
    | .error e => .error e
    | .ok sev =>
      match stp datetime_string with
      | some epoch => .ok (epoch, sev)
      | none => .error .valueError

/-- A matched log line as the indexes identify it:
`(timestamp, server, line_number)`. -/
abbrev Triple := Int × String × Nat

/-- The mutable attributes of a `LogQuery` instance. -/
structure LogQueryState where
  /-- `self._server_to_remote_file`, fixed at construction. -/
  server_to_remote_file : List (String × String)
  /-- `self._server_to_local_file`. -/
  server_to_local_file : List (String × String)
  /-- `self._server_index`: per server, `(epoch, line_number)` pairs in
  key order of the epoch. -/
  server_index : List (String × List (Int × Nat))
  /-- `self._severity_index`: per severity value, `(epoch, server,
  line_number)` triples in key order of the epoch. -/
  severity_index : List (PyVal × List Triple)
deriving DecidableEq, Repr

/-- `LogQuery.__init__(**kwargs)`. -/
def initState (cfg : List (String × String)) : LogQueryState := ⟨cfg, [], [], []⟩

/-- `AliceLib.get_remote_file` with the default output path
`AliceLib.local_temp_dir + remote_file`.  The download side effect is an
external collaborator; the downloaded content is the environment
parameter `env` applied to this path. -/
def get_remote_file (remote_file : String) : String := "temp/" ++ remote_file

/-- `LogQuery._add_to_server_index`. -/
def add_to_server_index (epoch : Int) (server : String) (line_number : Nat)
    (idx : List (String × List (Int × Nat))) : List (String × List (Int × Nat)) :=
  updateVal server (sortedKeyAdd (fun p => p.1) (epoch, line_number)) idx

/-- `LogQuery._add_to_severity_index`: the membership test
`severity not in self._severity_index` hashes the key first, so an
unhashable severity value (the `logging._STYLES` dict) raises
`TypeError` before any mutation; otherwise create the severity bucket
on first use (a fresh dict key is appended at the end), then insert. -/
def add_to_severity_index (epoch : Int) (severity : PyVal) (server : String)
    (line_number : Nat) (idx : List (PyVal × List Triple)) :
    Except QueryError (List (PyVal × List Triple)) :=
  if severity.hashable then
    .ok (match lookup? severity idx with
      | some _ =>
          updateVal severity (sortedKeyAdd (fun t => t.1) (epoch, server, line_number)) idx
      | none => idx ++ [(severity, [(epoch, server, line_number)])])
  else .error .typeError

/-- The `for line in f` loop of `LogQuery._add_to_index`, line by line
with 1-based line numbers.  It stops at the first line whose metadata
extraction or severity-index insertion raises, leaving the index
mutations made so far in place — exactly what the propagating Python
exception leaves behind.  The source calls `_add_to_server_index`
before `_add_to_severity_index`, so when the latter raises the
server-index insertion for the same line persists; the severity
insertion reads only `severity_index`, untouched by that earlier
call. -/
def indexLines (stp : String → Option Int) (server : String) :
    Nat → List String → LogQueryState → LogQueryState × Option QueryError
  | _, [], st => (st, none)
  | line_number, line :: rest, st =>
    match get_line_metadata stp line with
    | .error e => (st, some e)
    | .ok (epoch, severity) =>
      match add_to_severity_index epoch severity server line_number st.severity_index with
      | .error e =>
        ({ st with server_index := add_to_server_index epoch server line_number st.server_index },
         some e)
      | .ok sidx =>
        indexLines stp server (line_number + 1) rest
          { st with
            server_index := add_to_server_index epoch server line_number st.server_index,
            severity_index := sidx }

/-- `LogQuery._add_to_index`. -/
def add_to_index (env : String → List String) (stp : String → Option Int)
    (st : LogQueryState) (server : String) (file_name : String) :
    LogQueryState × Option QueryError :=
  let st := if (lookup? server st.server_index).isSome then st
            else { st with server_index := dictSet server [] st.server_index }
  indexLines stp server 1 (env file_name) st

/-- `LogQuery._add_server_log_to_index`.  Besides the state and the
possible error it reports the fetches it performed (the
`AliceLib.get_remote_file` calls), used to account the at-most-once
contract.  On an unconfigured server the `KeyError` from
`self._server_to_remote_file[server]` is raised while evaluating the
arguments of `get_remote_file`, so no fetch happens and the state is
untouched.  On a metadata error during the scan the local-file mapping
is not updated (the assignment comes after the scan). -/
def add_server_log_to_index (env : String → List String) (stp : String → Option Int)
    (st : LogQueryState) (server : String) :
    LogQueryState × List String × Option QueryError :=
  match lookup? server st.server_to_remote_file with
  | none => (st, [], some (.keyError server))
  | some remote =>
    let file_name := get_remote_file remote
    let st := { st with server_index := dictSet server [] st.server_index }
    match add_to_index env stp st server file_name with
    | (st2, some e) => (st2, [server], some e)
    | (st2, none) =>
      ({ st2 with server_to_local_file := dictSet server file_name st2.server_to_local_file },
       [server], none)

/-- The lazy-indexing loop at the head of `LogQuery.query`
(`for server in servers: if server not in self._server_to_local_file:
self._add_server_log_to_index(server)`).  Returns the state, the fetch
events of the whole loop, and the first error, at which the loop
stops. -/
def ensureIndexed (env : String → List String) (stp : String → Option Int) :
    List String → LogQueryState → LogQueryState × List String × Option QueryError
  | [], st => (st, [], none)
  | server :: rest, st =>
    if (lookup? server st.server_to_local_file).isSome then
      ensureIndexed env stp rest st
    else
      match add_server_log_to_index env stp st server with
      | (st2, ev, none) =>
        let (st3, ev2, e) := ensureIndexed env stp rest st2
        (st3, ev ++ ev2, e)
      | (st2, ev, some e) => (st2, ev, some e)

/-- An item of the merge heap in `LogQuery.search`: the Python tuple
`(timestamp, server, line_number, idx)`. -/
structure HeapItem where
  ts : Int
  server : String
  line : Nat
  idx : Nat
deriving DecidableEq, Repr

/-- Python tuple `<=` on heap items (lexicographic, strings compared by
code points as Python compares them). -/
def heapLeb (a b : HeapItem) : Bool :=
  decide (a.ts < b.ts) ||
    (decide (a.ts = b.ts) &&
      (decide (a.server < b.server) ||
        (decide (a.server = b.server) &&
          (decide (a.line < b.line) ||
            (decide (a.line = b.line) && decide (a.idx ≤ b.idx))))))

/-- `heapq.heappush` modelled on a list kept sorted by the tuple order.
The heap's only observable behaviour — `heappop` returns the minimum
item — is preserved by this representation: popping is taking the
head. -/
def heapPush (x : HeapItem) : List HeapItem → List HeapItem
  | [] => [x]
  | y :: ys => if heapLeb y x then y :: heapPush x ys else x :: y :: ys

/-- `self._server_index[server]` as used inside `search`; the servers
reaching `search` through `query` are always present. -/
def lookupIdx (sidx : List (String × List (Int × Nat))) (server : String) : List (Int × Nat) :=
  (lookup? server sidx).getD []

/-- Number of index entries at or above the rank a heap item points at;
the termination measure of the merge loop counts these. -/
def contrib (sidx : List (String × List (Int × Nat))) (h : HeapItem) : Nat :=
  (lookupIdx sidx h.server).length - h.idx

/-- Total termination credit of a heap. -/
def heapMeasure (sidx : List (String × List (Int × Nat))) (heap : List HeapItem) : Nat :=
  (heap.map (contrib sidx)).sum

theorem heapPush_length (x : HeapItem) (l : List HeapItem) :
    (heapPush x l).length = l.length + 1 := by
  induction l with
  | nil => rfl
  | cons y ys ih =>
    simp only [heapPush]
    split
    · simp [ih]
    · simp

theorem heapMeasure_push (sidx : List (String × List (Int × Nat))) (x : HeapItem)
    (l : List HeapItem) :
    heapMeasure sidx (heapPush x l) = contrib sidx x + heapMeasure sidx l := by
  induction l with
  | nil => rfl
  | cons y ys ih =>
    simp only [heapPush]
    split
    · simp only [heapMeasure, List.map_cons, List.sum_cons] at ih ⊢
      omega
    · simp [heapMeasure]

/-- The seed loop of `LogQuery.search`: for each requested server,
locate the first index entry with timestamp at least `start_epoch` by
`bisect_left` and push it.  The source reads
`self._server_index[server][idx]` without a bounds check, so a server
with no such entry raises `IndexError`. -/
def seedHeap (sidx : List (String × List (Int × Nat))) (start_epoch : Int) :
    List String → List HeapItem → Except QueryError (List HeapItem)
  | [], heap => .ok heap
  | server :: rest, heap =>
    let l := lookupIdx sidx server
    let idx := bisectLeftKey (fun p => p.1) start_epoch l
    match l[idx]? with
    | some (timestamp, line_number) =>
      seedHeap sidx start_epoch rest (heapPush ⟨timestamp, server, line_number, idx⟩ heap)
    | none => .error .indexError

/-- The `for severity in self._severity_index` loop in the body of the
merge: the buckets are visited in dict insertion order; a non-`int`
severity key (a `str`, or the `_STYLES` dict — though the latter can
never be inserted) makes `severity >= min_severity` a Python
`TypeError`; an accepted triple is appended and the early return fires
as soon as `len(result) >= entries`.  Returns the result list and
whether the early return fired. -/
def sevScan (min_severity : Int) (t : Triple) (entries : Int) :
    List (PyVal × List Triple) → List Triple → Except QueryError (List Triple × Bool)
  | [], result => .ok (result, false)
  | (k, bucket) :: rest, result =>
    match k with
    | .str _ => .error .typeError
    | .stylesDict => .error .typeError
    | .int v =>
      if min_severity ≤ v ∧ t ∈ bucket then
        let result2 := result ++ [t]
        if entries ≤ (result2.length : Int) then .ok (result2, true)
        else sevScan min_severity t entries rest result2
      else sevScan min_severity t entries rest result

/-- The `while heap` loop of `LogQuery.search`: pop the minimum item,
scan the severity buckets, then (unless the early return fired) push the
popped server's next index entry if it exists. -/
def searchLoop (sidx : List (String × List (Int × Nat)))
    (sevIdx : List (PyVal × List Triple)) (min_severity entries : Int) :
    List HeapItem → List Triple → Except QueryError (List Triple)
  | [], result => .ok result
  | item :: rest, result =>
    match sevScan min_severity (item.ts, item.server, item.line) entries sevIdx result with
    | .error e => .error e
    | .ok (result2, true) => .ok result2
    | .ok (result2, false) =>
      let l := lookupIdx sidx item.server
      match h : l[item.idx + 1]? with
      | some (next_ts, next_line) =>
        searchLoop sidx sevIdx min_severity entries
          (heapPush ⟨next_ts, item.server, next_line, item.idx + 1⟩ rest) result2
      | none => searchLoop sidx sevIdx min_severity entries rest result2
  termination_by heap _ => heap.length + heapMeasure sidx heap
  decreasing_by
  · have hlt : item.idx + 1 < (lookupIdx sidx item.server).length :=
      (List.getElem?_eq_some.mp h).1
    simp only [heapPush_length, heapMeasure_push]
    simp only [heapMeasure, List.map_cons, List.sum_cons, List.length_cons, contrib]
    omega
  · simp only [heapMeasure, List.map_cons, List.sum_cons, List.length_cons]
    omega

/-- `LogQuery.search`. -/
def search (st : LogQueryState) (servers : List String) (min_severity : Int)
    (start_epoch : Int) (entries : Int) : Except QueryError (List Triple) :=
  match seedHeap st.server_index start_epoch servers [] with
  | .error e => .error e
  | .ok heap => searchLoop st.server_index st.severity_index min_severity entries heap []

/-- The arguments of `LogQuery.query`.  The `start` datetime is
represented by its epoch seconds (second resolution, UTC-naive), the
canonical timestamp representation of the spec. -/
structure QueryArgs where
  start : Int
  entries : Int
  servers : List String
  min_severity : Int
deriving DecidableEq, Repr

/-- `LogQuery._to_epoch_seconds`: on the canonical epoch-seconds
representation of datetimes the conversion is the identity. -/
def to_epoch_seconds (dt : Int) : Int := dt

/-- The body of `LogQuery.query` up to and including the `search` call:
lazily index every named server, then search.  Returns the state, the
fetch events, and the matched `(timestamp, server, line_number)`
triples. -/
def runQuery (env : String → List String) (stp : String → Option Int)
    (st : LogQueryState) (a : QueryArgs) :
    LogQueryState × List String × Except QueryError (List Triple) :=
  match ensureIndexed env stp a.servers st with
  | (st2, ev, some e) => (st2, ev, .error e)
  | (st2, ev, none) =>
    (st2, ev, search st2 a.servers a.min_severity (to_epoch_seconds a.start) a.entries)

/-- `linecache.getline(file_name, line_number)`: 1-based, and the empty
string when the line does not exist. -/
def linecache_getline (env : String → List String) (file_name : String)
    (line_number : Nat) : String :=
  ((env file_name)[line_number - 1]?).getD ""

/-- The yield step of `LogQuery.query`: look up the local file, re-read
the raw line, re-parse it and format
`[datetime][severity][server] content`. -/
def materializeLine (env : String → List String) (st : LogQueryState) (t : Triple) :
    Except QueryError String :=
  match lookup? t.2.1 st.server_to_local_file with
  | none => .error (.keyError t.2.1)
  | some file_name =>
    match parse_line (linecache_getline env file_name t.2.2) with
    | .error e => .error e
    | .ok (datetime_string, severity_string, content) =>
      .ok ("[" ++ datetime_string ++ "][" ++ severity_string ++ "][" ++ t.2.1 ++ "] " ++ content)

/-- Materialize every matched triple in order; the first failure aborts
the consumption, as the exception would abort `list(generator)`. -/
def materializeAll (env : String → List String) (st : LogQueryState) :
    List Triple → Except QueryError (List String)
  | [] => .ok []
  | t :: ts =>
    match materializeLine env st t with
    | .error e => .error e
    | .ok s =>
      match materializeAll env st ts with
      | .error e => .error e
      | .ok ss => .ok (s :: ss)

/-- Consuming the generator returned by `LogQuery.query` to exhaustion
against the state `st` the instance has when consumption starts:
everything `query` does — lazy indexing, the search, the
materialization — happens here. -/
def consumeQuery (env : String → List String) (stp : String → Option Int)
    (st : LogQueryState) (a : QueryArgs) :
    LogQueryState × List String × Except QueryError (List String) :=
  match runQuery env stp st a with
  | (st2, ev, .error e) => (st2, ev, .error e)
  | (st2, ev, .ok ts) => (st2, ev, materializeAll env st2 ts)

/-- The value a call of `LogQuery.query(...)` returns immediately: the
function body contains `yield`, so CPython builds a generator object
that closes over the instance and the arguments and runs none of the
body. -/
structure QueryGen where
  args : QueryArgs
deriving DecidableEq, Repr

/-- `LogQuery.query` itself: builds the generator and returns it, with
the instance state untouched and no possibility of an exception. -/
def LogQuery.query (st : LogQueryState) (a : QueryArgs) : LogQueryState × QueryGen :=
  (st, ⟨a⟩)

/-- Consuming a generator later, against whatever state the instance has
then. -/
def QueryGen.consume (g : QueryGen) (env : String → List String)
    (stp : String → Option Int) (st : LogQueryState) :
    LogQueryState × List String × Except QueryError (List String) :=
  consumeQuery env stp st g.args

/-- A sequence of queries against the same instance, each consumed to
exhaustion before the next; returns the final state and the
concatenated fetch events. -/
def runQueries (env : String → List String) (stp : String → Option Int) :
    LogQueryState → List QueryArgs → LogQueryState × List String
  | st, [] => (st, [])
  | st, a :: rest =>
    let r := consumeQuery env stp st a
    let r2 := runQueries env stp r.1 rest
    (r2.1, r.2.1 ++ r2.2)

/-! Spec-side definitions, for comparison with the embedded code. -/

/-- Modelled from the spec: a raw line "matches the bracketed-prefix
shape `[<timestamp>][<severity>]<content>`" — it opens with a bracketed
field, a second bracketed field follows immediately, and the rest is
content; the bracketed fields cannot span a line break. -/
def SpecShape (line : String) : Prop :=
  ∃ A B C : List Char, (∀ c ∈ A, c ≠ '\n') ∧ (∀ c ∈ B, c ≠ '\n') ∧
    line.data = '[' :: (A ++ ']' :: '[' :: (B ++ ']' :: C))

/-- Modelled from the spec: the recognized standard severity level
names (the standard enumeration DEBUG < INFO < WARNING < ERROR <
CRITICAL together with the standard aliases and the NOTSET level). -/
def specSeverityNames : List String :=
  ["DEBUG", "INFO", "WARN", "WARNING", "ERROR", "CRITICAL", "FATAL", "NOTSET"]

/-! Well-formedness invariants of reachable engine states, used as
hypotheses; they hold of the empty initial state and are preserved by
the lazy indexing. -/

/-- The metadata the indexer would extract for line `line_number` of the
configured file of `server`: configuration lookup, line fetch, then
`_get_line_metadata`. -/
def lineMetaAt (env : String → List String) (stp : String → Option Int)
    (cfg : List (String × String)) (server : String) (line_number : Nat) :
    Option (Int × PyVal) :=
  match lookup? server cfg with
  | none => none
  | some remote =>
    match (env (get_remote_file remote))[line_number - 1]? with
    | none => none
    | some line => (get_line_metadata stp line).toOption

/-- A severity-index entry is faithful: the bucket key and the recorded
timestamp are the metadata of the recorded line of the recorded
server. -/
def sevEntryWF (env : String → List String) (stp : String → Option Int)
    (cfg : List (String × String)) (k : PyVal) (t : Triple) : Prop :=
  lineMetaAt env stp cfg t.2.1 t.2.2 = some (t.1, k)

/-- Every severity-index entry is faithful. -/
def sevIdxWF (env : String → List String) (stp : String → Option Int)
    (st : LogQueryState) : Prop :=
  ∀ p ∈ st.severity_index, ∀ t ∈ p.2, sevEntryWF env stp st.server_to_remote_file p.1 t

/-- Every per-server index is in non-decreasing timestamp order (the
`SortedList` invariant). -/
def serverIdxSorted (st : LogQueryState) : Prop :=
  ∀ p ∈ st.server_index, List.Chain' (fun u v : Int × Nat => u.1 ≤ v.1) p.2

/-- One line goes through a full indexing pass without an exception:
`_get_line_metadata` succeeds, and the extracted severity value is
hashable, so `_add_to_severity_index` does not raise either. -/
def lineIndexes (stp : String → Option Int) (line : String) : Bool :=
  match get_line_metadata stp line with
  | .ok (_, severity) => severity.hashable
  | .error _ => false

/-- All lines of a file index without an exception (the indexing scan
of that file completes). -/
def cleanScan (stp : String → Option Int) (lines : List String) : Prop :=
  ∀ line ∈ lines, lineIndexes stp line = true

/-! Concrete fixtures used by the counterexamples and witnesses. -/

/-- Two small well-formed log files. -/
def env0 : String → List String := fun p =>
  if p = "temp/s1.log" then
    ["[2021-01-17 12:00:00][INFO] alpha\n", "[2021-01-17 12:00:05][ERROR] beta\n"]
  else if p = "temp/s2.log" then
    ["[2021-01-17 12:00:03][WARNING] gamma\n"]
  else if p = "temp/bad.log" then
    ["garbage\n"]
  else []

/-- The strptime oracle on the timestamps occurring in `env0`, with
their true epoch seconds. -/
def stp0 : String → Option Int := fun s =>
  if s = "2021-01-17 12:00:00" then some 1610884800
  else if s = "2021-01-17 12:00:03" then some 1610884803
  else if s = "2021-01-17 12:00:05" then some 1610884805
  else none

/-- A two-server configuration over the well-formed files. -/
def cfg0 : List (String × String) := [("s1", "s1.log"), ("s2", "s2.log")]

/-- A query matching all three lines of `cfg0`'s files. -/
def a0 : QueryArgs := ⟨1610884800, 10, ["s1", "s2"], 20⟩

/-- A configuration whose only file has a malformed line. -/
def cfgBad : List (String × String) := [("bad1", "bad.log")]

/-- A query against the malformed source. -/
def aBad : QueryArgs := ⟨0, 5, ["bad1"], 10⟩

/-! Helper lemmas about the dict and sorted-list models. -/

theorem lookup?_dictSet_self {κ α : Type} [DecidableEq κ] (k : κ) (v : α)
    (d : List (κ × α)) : lookup? k (dictSet k v d) = some v := by
  induction d with
  | nil => simp [dictSet, lookup?]
  | cons p ps ih =>
    by_cases h : p.1 = k
    · simp [dictSet, lookup?, h]
    · simp [dictSet, lookup?, h, ih]

theorem lookup?_dictSet_ne {κ α : Type} [DecidableEq κ] {k k2 : κ} (v : α)
    (d : List (κ × α)) (h : k ≠ k2) : lookup? k (dictSet k2 v d) = lookup? k d := by
  have h2 : ¬(k2 = k) := fun hh => h hh.symm
  induction d with
  | nil => simp [dictSet, lookup?, h2]
  | cons p ps ih =>
    by_cases h3 : p.1 = k2
    · simp [dictSet, lookup?, h3, h2]
    · by_cases h4 : p.1 = k <;> simp [dictSet, lookup?, h3, h4, h2, h, ih]

theorem lookup?_updateVal_ne {κ α : Type} [DecidableEq κ] {k k2 : κ} (f : α → α)
    (d : List (κ × α)) (h : k ≠ k2) : lookup? k (updateVal k2 f d) = lookup? k d := by
  have h2 : ¬(k2 = k) := fun hh => h hh.symm
  induction d with
  | nil => simp [updateVal, lookup?]
  | cons p ps ih =>
    by_cases h3 : p.1 = k2
    · simp [updateVal, lookup?, h3, h2]
    · by_cases h4 : p.1 = k <;> simp [updateVal, lookup?, h3, h4, h2, h, ih]

theorem mem_updateVal {κ α : Type} [DecidableEq κ] {k : κ} {f : α → α}
    {d : List (κ × α)} {p : κ × α} (h : p ∈ updateVal k f d) :
    p ∈ d ∨ (p.1 = k ∧ ∃ v, (k, v) ∈ d ∧ p.2 = f v) := by
  induction d with
  | nil => simp [updateVal] at h
  | cons q qs ih =>
    by_cases h2 : q.1 = k
    · simp only [updateVal, if_pos h2] at h
      rcases List.mem_cons.mp h with h3 | h3
      · right
        refine ⟨by simp [h3], q.2, ?_, by simp [h3]⟩
        have hq : q = (k, q.2) := by rw [← h2]
        exact hq ▸ List.mem_cons_self q qs
      · exact Or.inl (List.mem_cons_of_mem _ h3)
    · simp only [updateVal, if_neg h2] at h
      rcases List.mem_cons.mp h with h3 | h3
      · exact Or.inl (by simp [h3])
      · rcases ih h3 with h4 | ⟨h4, v, h5, h6⟩
        · exact Or.inl (List.mem_cons_of_mem _ h4)
        · exact Or.inr ⟨h4, v, List.mem_cons_of_mem _ h5, h6⟩

theorem mem_sortedKeyAdd {α : Type} {key : α → Int} {x y : α} {l : List α} :
    y ∈ sortedKeyAdd key x l ↔ y = x ∨ y ∈ l := by
  induction l with
  | nil => simp [sortedKeyAdd]
  | cons z zs ih =>
    simp only [sortedKeyAdd]
    split
    · simp only [List.mem_cons, ih]
      try tauto
    · simp only [List.mem_cons]
      try tauto

theorem chain'_sortedKeyAdd {α : Type} {key : α → Int} {x : α} {l : List α}
    (h : List.Chain' (fun u v => key u ≤ key v) l) :
    List.Chain' (fun u v => key u ≤ key v) (sortedKeyAdd key x l) := by
  induction l with
  | nil => simp [sortedKeyAdd]
  | cons z zs ih =>
    simp only [sortedKeyAdd]
    by_cases hz : key z ≤ key x
    · rw [if_pos hz]
      refine List.chain'_cons'.mpr ⟨?_, ih h.tail⟩
      intro w hw
      cases zs with
      | nil =>
        simp [sortedKeyAdd] at hw
        subst hw
        exact hz
      | cons u us =>
        simp only [sortedKeyAdd] at hw
        by_cases hu : key u ≤ key x
        · rw [if_pos hu] at hw
          simp at hw
          subst hw
          exact (List.chain'_cons.mp h).1
        · rw [if_neg hu] at hw
          simp at hw
          subst hw
          exact hz
    · rw [if_neg hz]
      exact List.Chain'.cons (by omega) h

/-! State evolution lemmas: the configuration is never mutated, the
local-file mapping only grows, the indexing scan's outcome depends only
on the scanned lines.  First, explicit unfolding lemmas for
`add_to_severity_index` and the three control paths of a non-empty
`indexLines` step. -/

theorem add_to_severity_index_ok {epoch : Int} {sev : PyVal} {server : String}
    {ln : Nat} {idx : List (PyVal × List Triple)} (hh : sev.hashable = true) :
    add_to_severity_index epoch sev server ln idx =
      .ok (match lookup? sev idx with
        | some _ => updateVal sev (sortedKeyAdd (fun t => t.1) (epoch, server, ln)) idx
        | none => idx ++ [(sev, [(epoch, server, ln)])]) := by
  unfold add_to_severity_index
  rw [if_pos hh]

theorem add_to_severity_index_err {epoch : Int} {sev : PyVal} {server : String}
    {ln : Nat} {idx : List (PyVal × List Triple)} (hh : ¬ sev.hashable = true) :
    add_to_severity_index epoch sev server ln idx = .error .typeError := by
  unfold add_to_severity_index
  rw [if_neg hh]

theorem indexLines_cons_err {stp : String → Option Int} {server : String} {n : Nat}
    {line : String} {rest : List String} {st : LogQueryState} {e : QueryError}
    (hm : get_line_metadata stp line = .error e) :
    indexLines stp server n (line :: rest) st = (st, some e) := by
  simp only [indexLines, hm]

theorem indexLines_cons_sev_err {stp : String → Option Int} {server : String} {n : Nat}
    {line : String} {rest : List String} {st : LogQueryState} {epoch : Int}
    {sev : PyVal} {e : QueryError}
    (hm : get_line_metadata stp line = .ok (epoch, sev))
    (hadd : add_to_severity_index epoch sev server n st.severity_index = .error e) :
    indexLines stp server n (line :: rest) st =
      ({ st with server_index := add_to_server_index epoch server n st.server_index },
       some e) := by
  simp only [indexLines, hm, hadd]

theorem indexLines_cons_ok {stp : String → Option Int} {server : String} {n : Nat}
    {line : String} {rest : List String} {st : LogQueryState} {epoch : Int}
    {sev : PyVal} {sidx : List (PyVal × List Triple)}
    (hm : get_line_metadata stp line = .ok (epoch, sev))
    (hadd : add_to_severity_index epoch sev server n st.severity_index = .ok sidx) :
    indexLines stp server n (line :: rest) st =
      indexLines stp server (n + 1) rest
        { st with server_index := add_to_server_index epoch server n st.server_index,
                  severity_index := sidx } := by
  simp only [indexLines, hm, hadd]

theorem indexLines_frame (stp : String → Option Int) (server : String) :
    ∀ (n : Nat) (lines : List String) (st : LogQueryState),
      (indexLines stp server n lines st).1.server_to_remote_file = st.server_to_remote_file ∧
      (indexLines stp server n lines st).1.server_to_local_file = st.server_to_local_file := by
  intro n lines
  induction lines generalizing n with
  | nil => intro st; exact ⟨rfl, rfl⟩
  | cons line rest ih =>
    intro st
    cases hm : get_line_metadata stp line with
    | error e =>
      rw [indexLines_cons_err hm]
      exact ⟨rfl, rfl⟩
    | ok m =>
      rcases m with ⟨epoch, sev⟩
      cases hadd : add_to_severity_index epoch sev server n st.severity_index with
      | error e =>
        rw [indexLines_cons_sev_err hm hadd]
        exact ⟨rfl, rfl⟩
      | ok sidx =>
        rw [indexLines_cons_ok hm hadd]
        exact ih (n + 1) _

theorem indexLines_err_eq (stp : String → Option Int) (server : String) :
    ∀ (n : Nat) (lines : List String) (st st' : LogQueryState),
      (indexLines stp server n lines st).2 = (indexLines stp server n lines st').2 := by
  intro n lines
  induction lines generalizing n with
  | nil => intro st st'; rfl
  | cons line rest ih =>
    intro st st'
    cases hm : get_line_metadata stp line with
    | error e =>
      rw [indexLines_cons_err hm, indexLines_cons_err hm]
    | ok m =>
      rcases m with ⟨epoch, sev⟩
      by_cases hh : sev.hashable = true
      · rw [indexLines_cons_ok hm (add_to_severity_index_ok hh),
            indexLines_cons_ok hm (add_to_severity_index_ok hh)]
        exact ih (n + 1) _ _
      · rw [indexLines_cons_sev_err hm (add_to_severity_index_err hh),
            indexLines_cons_sev_err hm (add_to_severity_index_err hh)]

theorem indexLines_clean (stp : String → Option Int) (server : String) :
    ∀ (n : Nat) (lines : List String) (st : LogQueryState),
      (∀ line ∈ lines, lineIndexes stp line = true) →
      (indexLines stp server n lines st).2 = none := by
  intro n lines
  induction lines generalizing n with
  | nil => intro st _; rfl
  | cons line rest ih =>
    intro st hclean
    have h1 := hclean line (List.mem_cons_self _ _)
    cases hm : get_line_metadata stp line with
    | error e =>
      simp only [lineIndexes, hm] at h1
      exact absurd h1 (by decide)
    | ok m =>
      rcases m with ⟨epoch, sev⟩
      simp only [lineIndexes, hm] at h1
      rw [indexLines_cons_ok hm (add_to_severity_index_ok h1)]
      exact ih (n + 1) _ (fun l hl => hclean l (List.mem_cons_of_mem _ hl))

theorem add_to_index_frame (env : String → List String) (stp : String → Option Int)
    (st : LogQueryState) (server file_name : String) :
    (add_to_index env stp st server file_name).1.server_to_remote_file
        = st.server_to_remote_file ∧
    (add_to_index env stp st server file_name).1.server_to_local_file
        = st.server_to_local_file := by
  unfold add_to_index
  constructor
  · rw [(indexLines_frame stp server 1 _ _).1]
    split <;> rfl
  · rw [(indexLines_frame stp server 1 _ _).2]
    split <;> rfl

theorem add_to_index_err_eq (env : String → List String) (stp : String → Option Int)
    (st st' : LogQueryState) (server file_name : String) :
    (add_to_index env stp st server file_name).2
      = (add_to_index env stp st' server file_name).2 := by
  unfold add_to_index
  rw [indexLines_err_eq stp server 1 (env file_name)]

theorem add_server_log_cfg (env : String → List String) (stp : String → Option Int)
    (st : LogQueryState) (server : String) :
    (add_server_log_to_index env stp st server).1.server_to_remote_file
      = st.server_to_remote_file := by
  cases h : lookup? server st.server_to_remote_file with
  | none => simp [add_server_log_to_index, h]
  | some remote =>
    have hfr := add_to_index_frame env stp
      { st with server_index := dictSet server [] st.server_index } server (get_remote_file remote)
    rcases hres : add_to_index env stp
        { st with server_index := dictSet server [] st.server_index } server
        (get_remote_file remote) with ⟨st2, e?⟩
    rw [hres] at hfr
    cases e? <;> simp [add_server_log_to_index, h, hres] <;> exact hfr.1

theorem add_server_log_local (env : String → List String) (stp : String → Option Int)
    (st : LogQueryState) (server : String) :
    (add_server_log_to_index env stp st server).1.server_to_local_file
        = st.server_to_local_file ∨
      ∃ f, (add_server_log_to_index env stp st server).1.server_to_local_file
        = dictSet server f st.server_to_local_file := by
  cases h : lookup? server st.server_to_remote_file with
  | none => simp [add_server_log_to_index, h]
  | some remote =>
    have hfr := add_to_index_frame env stp
      { st with server_index := dictSet server [] st.server_index } server (get_remote_file remote)
    rcases hres : add_to_index env stp
        { st with server_index := dictSet server [] st.server_index } server
        (get_remote_file remote) with ⟨st2, e?⟩
    rw [hres] at hfr
    cases e? with
    | none =>
      right
      refine ⟨get_remote_file remote, ?_⟩
      simp [add_server_log_to_index, h, hres]
      rw [hfr.2]
    | some e =>
      left
      simp [add_server_log_to_index, h, hres]
      exact hfr.2

theorem add_server_log_local_some (env : String → List String) (stp : String → Option Int)
    (st : LogQueryState) (server : String)
    (h : (add_server_log_to_index env stp st server).2.2 = none) :
    (lookup? server (add_server_log_to_index env stp st server).1.server_to_local_file).isSome := by
  cases hc : lookup? server st.server_to_remote_file with
  | none => simp [add_server_log_to_index, hc] at h
  | some remote =>
    rcases hres : add_to_index env stp
        { st with server_index := dictSet server [] st.server_index } server
        (get_remote_file remote) with ⟨st2, e?⟩
    cases e? with
    | none => simp [add_server_log_to_index, hc, hres, lookup?_dictSet_self]
    | some e => simp [add_server_log_to_index, hc, hres] at h

theorem add_server_log_events (env : String → List String) (stp : String → Option Int)
    (st : LogQueryState) (server : String) {s : String}
    (h : s ∈ (add_server_log_to_index env stp st server).2.1) :
    s = server ∧ ∃ rem, lookup? server st.server_to_remote_file = some rem := by
  cases hc : lookup? server st.server_to_remote_file with
  | none => simp [add_server_log_to_index, hc] at h
  | some remote =>
    rcases hres : add_to_index env stp
        { st with server_index := dictSet server [] st.server_index } server
        (get_remote_file remote) with ⟨st2, e?⟩
    cases e? with
    | none =>
      simp [add_server_log_to_index, hc, hres] at h
      exact ⟨h, remote, rfl⟩
    | some e =>
      simp [add_server_log_to_index, hc, hres] at h
      exact ⟨h, remote, rfl⟩

theorem add_server_log_clean (env : String → List String) (stp : String → Option Int)
    (st : LogQueryState) (server rem : String)
    (h : lookup? server st.server_to_remote_file = some rem)
    (hc : ∀ line ∈ env (get_remote_file rem), lineIndexes stp line = true) :
    (add_server_log_to_index env stp st server).2.2 = none := by
  rcases hres : add_to_index env stp
      { st with server_index := dictSet server [] st.server_index } server
      (get_remote_file rem) with ⟨st2, e?⟩
  cases e? with
  | none => simp [add_server_log_to_index, h, hres]
  | some e =>
    exfalso
    have : (add_to_index env stp
        { st with server_index := dictSet server [] st.server_index } server
        (get_remote_file rem)).2 = none := by
      unfold add_to_index
      exact indexLines_clean stp server 1 _ _ hc
    rw [hres] at this
    simp at this

theorem ensureIndexed_cfg (env : String → List String) (stp : String → Option Int) :
    ∀ (servers : List String) (st : LogQueryState),
      (ensureIndexed env stp servers st).1.server_to_remote_file
        = st.server_to_remote_file := by
  intro servers
  induction servers with
  | nil => intro st; rfl
  | cons server rest ih =>
    intro st
    simp only [ensureIndexed]
    split
    · exact ih st
    · rcases hres : add_server_log_to_index env stp st server with ⟨st2, ev, e?⟩
      have hcfg := add_server_log_cfg env stp st server
      rw [hres] at hcfg
      cases e? with
      | none =>
        simp only
        rw [ih st2]
        exact hcfg
      | some e => exact hcfg

theorem ensureIndexed_local_mono (env : String → List String) (stp : String → Option Int) :
    ∀ (servers : List String) (st : LogQueryState) (s : String),
      (lookup? s st.server_to_local_file).isSome →
      (lookup? s (ensureIndexed env stp servers st).1.server_to_local_file).isSome ∧
        s ∉ (ensureIndexed env stp servers st).2.1 := by
  intro servers
  induction servers with
  | nil => intro st s h; exact ⟨h, by simp [ensureIndexed]⟩
  | cons server rest ih =>
    intro st s h
    simp only [ensureIndexed]
    split
    · exact ih st s h
    · rename_i hguard
      have hne : s ≠ server := by
        intro he
        rw [he] at h
        exact hguard h
      rcases hres : add_server_log_to_index env stp st server with ⟨st2, ev, e?⟩
      have hloc := add_server_log_local env stp st server
      rw [hres] at hloc
      have hs2 : (lookup? s st2.server_to_local_file).isSome := by
        rcases hloc with hl | ⟨f, hl⟩
        · simp only at hl
          rw [hl]
          exact h
        · simp only at hl
          rw [hl, lookup?_dictSet_ne _ _ hne]
          exact h
      have hev : s ∉ ev := by
        intro hmem
        have := add_server_log_events env stp st server (by rw [hres]; exact hmem)
        exact hne this.1
      cases e? with
      | none =>
        simp only
        have := ih st2 s hs2
        refine ⟨this.1, ?_⟩
        simp only [List.mem_append]
        rintro (hm | hm)
        · exact hev hm
        · exact this.2 hm
      | some e => exact ⟨hs2, hev⟩

theorem add_server_log_events_shape (env : String → List String)
    (stp : String → Option Int) (st : LogQueryState) (server : String) :
    (add_server_log_to_index env stp st server).2.1 = [] ∨
      (add_server_log_to_index env stp st server).2.1 = [server] := by
  cases hc : lookup? server st.server_to_remote_file with
  | none => simp [add_server_log_to_index, hc]
  | some remote =>
    rcases hres2 : add_to_index env stp
        { st with server_index := dictSet server [] st.server_index } server
        (get_remote_file remote) with ⟨st3, e2?⟩
    cases e2? <;> simp [add_server_log_to_index, hc, hres2]

theorem ensureIndexed_count (env : String → List String) (stp : String → Option Int) :
    ∀ (servers : List String) (st : LogQueryState) (s : String),
      List.count s (ensureIndexed env stp servers st).2.1 ≤ 1 := by
  intro servers
  induction servers with
  | nil => intro st s; simp [ensureIndexed]
  | cons server rest ih =>
    intro st s
    by_cases hguard : (lookup? server st.server_to_local_file).isSome
    · simp only [ensureIndexed, hguard, if_true]
      exact ih st s
    · rcases hres : add_server_log_to_index env stp st server with ⟨st2, ev, e?⟩
      have hev := add_server_log_events_shape env stp st server
      rw [hres] at hev
      simp only at hev
      cases e? with
      | none =>
        simp only [ensureIndexed, hguard, hres, if_false, Bool.false_eq_true]
        simp only [List.count_append]
        by_cases hss : s = server
        · subst hss
          have hsome : (lookup? s st2.server_to_local_file).isSome := by
            have h2 := add_server_log_local_some env stp st s (by rw [hres])
            rw [hres] at h2
            exact h2
          have hnoev := (ensureIndexed_local_mono env stp rest st2 s hsome).2
          have h0 : List.count s (ensureIndexed env stp rest st2).2.1 = 0 :=
            List.count_eq_zero.mpr hnoev
          rcases hev with hev | hev <;> subst hev <;> simp [h0]
        · have h1 : List.count s ev = 0 := by
            rcases hev with hev | hev <;> subst hev <;> simp [hss]
          rw [h1]
          simpa using ih st2 s
      | some e =>
        simp only [ensureIndexed, hguard, hres, if_false, Bool.false_eq_true]
        rcases hev with hev | hev <;> subst hev
        · simp
        · exact le_trans (List.count_le_length _ _) (by simp)

theorem ensureIndexed_events_configured (env : String → List String)
    (stp : String → Option Int) :
    ∀ (servers : List String) (st : LogQueryState) (s : String),
      s ∈ (ensureIndexed env stp servers st).2.1 →
      ∃ rem, lookup? s st.server_to_remote_file = some rem := by
  intro servers
  induction servers with
  | nil => intro st s h; simp [ensureIndexed] at h
  | cons server rest ih =>
    intro st s h
    simp only [ensureIndexed] at h
    split at h
    · exact ih st s h
    · rcases hres : add_server_log_to_index env stp st server with ⟨st2, ev, e?⟩
      rw [hres] at h
      have hcfg := add_server_log_cfg env stp st server
      rw [hres] at hcfg
      cases e? with
      | none =>
        simp only [List.mem_append] at h
        rcases h with h | h
        · have := add_server_log_events env stp st server (by rw [hres]; exact h)
          rcases this.2 with ⟨rem, hr⟩
          exact ⟨rem, this.1 ▸ hr⟩
        · rcases ih st2 s h with ⟨rem, hr⟩
          rw [hcfg] at hr
          exact ⟨rem, hr⟩
      | some e =>
        have := add_server_log_events env stp st server (by rw [hres]; exact h)
        rcases this.2 with ⟨rem, hr⟩
        exact ⟨rem, this.1 ▸ hr⟩

theorem ensureIndexed_clean_some (env : String → List String) (stp : String → Option Int) :
    ∀ (servers : List String) (st : LogQueryState) (s : String),
      (∀ rem, lookup? s st.server_to_remote_file = some rem →
        ∀ line ∈ env (get_remote_file rem), lineIndexes stp line = true) →
      s ∈ (ensureIndexed env stp servers st).2.1 →
      (lookup? s (ensureIndexed env stp servers st).1.server_to_local_file).isSome := by
  intro servers
  induction servers with
  | nil => intro st s _ h; simp [ensureIndexed] at h
  | cons server rest ih =>
    intro st s hclean h
    by_cases hguard : (lookup? server st.server_to_local_file).isSome
    · simp only [ensureIndexed, hguard, if_true] at h ⊢
      exact ih st s hclean h
    · rcases hres : add_server_log_to_index env stp st server with ⟨st2, ev, e?⟩
      have hcfg := add_server_log_cfg env stp st server
      rw [hres] at hcfg
      simp only at hcfg
      cases e? with
      | none =>
        simp only [ensureIndexed, hguard, hres, if_false, Bool.false_eq_true] at h ⊢
        rcases List.mem_append.mp h with hm | hm
        · have hse := add_server_log_events env stp st server (by rw [hres]; exact hm)
          have hsome : (lookup? s st2.server_to_local_file).isSome := by
            have h2 := add_server_log_local_some env stp st server (by rw [hres])
            rw [hres] at h2
            rw [hse.1]
            exact h2
          exact (ensureIndexed_local_mono env stp rest st2 s hsome).1
        · exact ih st2 s (by rw [hcfg]; exact hclean) hm
      | some e =>
        simp only [ensureIndexed, hguard, hres, if_false, Bool.false_eq_true] at h ⊢
        exfalso
        have hse := add_server_log_events env stp st server (by rw [hres]; exact h)
        rcases hse.2 with ⟨rem, hr⟩
        have hnone := add_server_log_clean env stp st server rem hr
          (hclean rem (by rw [hse.1]; exact hr))
        rw [hres] at hnone
        simp at hnone

theorem consumeQuery_state_events (env : String → List String) (stp : String → Option Int)
    (st : LogQueryState) (a : QueryArgs) :
    (consumeQuery env stp st a).1 = (ensureIndexed env stp a.servers st).1 ∧
    (consumeQuery env stp st a).2.1 = (ensureIndexed env stp a.servers st).2.1 := by
  rcases hres : ensureIndexed env stp a.servers st with ⟨st2, ev, e?⟩
  cases e? with
  | none =>
    simp only [consumeQuery, runQuery, hres]
    cases search st2 a.servers a.min_severity (to_epoch_seconds a.start) a.entries with
    | error e => exact ⟨rfl, rfl⟩
    | ok ts => exact ⟨rfl, rfl⟩
  | some e => simp [consumeQuery, runQuery, hres]

theorem runQueries_count_zero (env : String → List String) (stp : String → Option Int) :
    ∀ (qs : List QueryArgs) (st : LogQueryState) (s : String),
      (lookup? s st.server_to_local_file).isSome →
      List.count s (runQueries env stp st qs).2 = 0 := by
  intro qs
  induction qs with
  | nil => intro st s _; simp [runQueries]
  | cons a rest ih =>
    intro st s h
    simp only [runQueries, List.count_append]
    have hse := consumeQuery_state_events env stp st a
    have hmono := ensureIndexed_local_mono env stp a.servers st s h
    rw [hse.2]
    rw [List.count_eq_zero.mpr hmono.2]
    have : (lookup? s (consumeQuery env stp st a).1.server_to_local_file).isSome := by
      rw [hse.1]
      exact hmono.1
    simpa using ih (consumeQuery env stp st a).1 s this

/-- C3: the at-most-once fetch-and-index contract, amended.  A source is
fetched and index-scanned at most once across any sequence of consumed
queries, provided every line of its configured file extracts metadata
cleanly (so its one indexing attempt completes).  The unamended claim is
false: a failing scan leaves the source unrecorded in
`server_to_local_file`, and the next query naming it fetches and scans
it again — see the counterexample. -/
theorem c3_fetch_at_most_once (env : String → List String) (stp : String → Option Int)
    (qs : List QueryArgs) (st : LogQueryState) (s : String)
    (hclean : ∀ rem, lookup? s st.server_to_remote_file = some rem →
      ∀ line ∈ env (get_remote_file rem), lineIndexes stp line = true) :
    List.count s (runQueries env stp st qs).2 ≤ 1 := by
  induction qs generalizing st with
  | nil => simp [runQueries]
  | cons a rest ih =>
    simp only [runQueries, List.count_append]
    have hse := consumeQuery_state_events env stp st a
    have hcfg : (consumeQuery env stp st a).1.server_to_remote_file
        = st.server_to_remote_file := by
      rw [hse.1]
      exact ensureIndexed_cfg env stp a.servers st
    by_cases hmem : s ∈ (consumeQuery env stp st a).2.1
    · have h1 : List.count s (consumeQuery env stp st a).2.1 ≤ 1 := by
        rw [hse.2]
        exact ensureIndexed_count env stp a.servers st s
      have hsome : (lookup? s (consumeQuery env stp st a).1.server_to_local_file).isSome := by
        rw [hse.1]
        refine ensureIndexed_clean_some env stp a.servers st s hclean ?_
        rw [← hse.2]
        exact hmem
      have h0 := runQueries_count_zero env stp rest (consumeQuery env stp st a).1 s hsome
      omega
    · rw [List.count_eq_zero.mpr hmem]
      have := ih (consumeQuery env stp st a).1 (by rw [hcfg]; exact hclean)
      simpa using this

/-- C3 counterexample: with a source whose file has a malformed line,
two consumed queries naming it fetch and scan it twice — the failed scan
does not mark the source as indexed, so the claimed at-most-once bound
fails on the code. -/
theorem c3_counterexample :
    ((runQueries env0 stp0 (initState cfgBad) [aBad, aBad]).2).count "bad1" = 2 := by decide

/-- C3 witness: the amended theorem applied to a clean two-server
configuration and two identical queries. -/
theorem c3_witness :
    List.count "s1" (runQueries env0 stp0 (initState cfg0) [a0, a0]).2 ≤ 1 := by
  refine c3_fetch_at_most_once env0 stp0 [a0, a0] (initState cfg0) "s1" ?_
  intro rem hrem
  have : rem = "s1.log" := by
    simp [initState, cfg0, lookup?] at hrem
    exact hrem.symm
  subst this
  decide

/-- C1: code-bug evaluation.  The claim requires `entries ≤ 0` to give
an empty sequence and the result never to exceed `entries`; but
`search` checks `len(result) >= entries` only after appending, so with
`entries = 0` and one qualifying line the consumed query yields one
entry. -/
theorem c1_entries_zero_yields_entry :
    (consumeQuery env0 stp0 (initState cfg0) ⟨1610884800, 0, ["s1"], 0⟩).2.2 =
      .ok ["[2021-01-17 12:00:00][INFO][s1]  alpha"] := by
  simp [consumeQuery, runQuery, ensureIndexed, add_server_log_to_index, add_to_index,
    indexLines, get_line_metadata, parse_line, getSeverityAttr, pyUpper, pyUpperChar,
    PyVal.hashable, search, seedHeap,
    searchLoop, sevScan, heapPush, heapLeb, lookupIdx, lookup?, dictSet, updateVal,
    sortedKeyAdd, bisectLeftKey, add_to_server_index, add_to_severity_index, splitLast,
    splitLastBrack, loggingUpperAttrs, env0, stp0, cfg0, initState, get_remote_file,
    to_epoch_seconds, materializeAll, materializeLine, linecache_getline]

/-- C2: code-bug evaluation.  The claim (and the spec) requires a start
time after the last entry of every requested source to give an empty
sequence; the code instead raises `IndexError`, because the seed loop
reads `self._server_index[server][idx]` without checking that
`bisect_left` returned an in-range position. -/
theorem c2_start_after_last_raises :
    (consumeQuery env0 stp0 (initState cfg0) ⟨1610884806, 5, ["s1", "s2"], 10⟩).2.2 =
      .error .indexError := by decide

/-- C10: calling `query(...)` by itself builds a generator closing over
the instance and the arguments, leaves the engine state untouched,
raises nothing, and defers all fetching, indexing and erroring to the
consumption of the generator, which operates on whatever state the
instance has when it is consumed. -/
theorem c10_query_call_defers :
    ∀ (st : LogQueryState) (a : QueryArgs),
      LogQuery.query st a = (st, ⟨a⟩) ∧
      ∀ (env : String → List String) (stp : String → Option Int) (st2 : LogQueryState),
        (LogQuery.query st a).2.consume env stp st2 = consumeQuery env stp st2 a :=
  fun _ _ => ⟨rfl, fun _ _ _ => rfl⟩

theorem add_server_log_unconfigured (env : String → List String) (stp : String → Option Int)
    (st : LogQueryState) (server : String)
    (h : lookup? server st.server_to_remote_file = none) :
    add_server_log_to_index env stp st server = (st, [], some (.keyError server)) := by
  simp [add_server_log_to_index, h]

theorem ensureIndexed_unconfigured (env : String → List String) (stp : String → Option Int) :
    ∀ (servers : List String) (st : LogQueryState) (s : String),
      s ∈ servers →
      lookup? s st.server_to_remote_file = none →
      lookup? s st.server_to_local_file = none →
      (∀ srv rem, lookup? srv st.server_to_remote_file = some rem →
        ∀ line ∈ env (get_remote_file rem), lineIndexes stp line = true) →
      (∃ b, (ensureIndexed env stp servers st).2.2 = some (.keyError b) ∧
        lookup? b st.server_to_remote_file = none) ∧
      s ∉ (ensureIndexed env stp servers st).2.1 := by
  intro servers
  induction servers with
  | nil => intro st s hs; simp at hs
  | cons server rest ih =>
    intro st s hs hcfg hloc hclean
    by_cases hguard : (lookup? server st.server_to_local_file).isSome
    · have hne : server ≠ s := by
        intro he
        rw [he, hloc] at hguard
        simp at hguard
      have hs2 : s ∈ rest := by
        rcases List.mem_cons.mp hs with h | h
        · exact absurd h.symm hne
        · exact h
      simp only [ensureIndexed, hguard, if_true]
      exact ih st s hs2 hcfg hloc hclean
    · by_cases hss : server = s
      · subst hss
        have heq := add_server_log_unconfigured env stp st server hcfg
        simp only [ensureIndexed, hguard, heq, if_false, Bool.false_eq_true]
        exact ⟨⟨server, rfl, hcfg⟩, by simp⟩
      · cases hc : lookup? server st.server_to_remote_file with
        | none =>
          have heq := add_server_log_unconfigured env stp st server hc
          simp only [ensureIndexed, hguard, heq, if_false, Bool.false_eq_true]
          exact ⟨⟨server, rfl, hc⟩, by simp⟩
        | some rem =>
          have hnone := add_server_log_clean env stp st server rem hc (hclean server rem hc)
          rcases hres : add_server_log_to_index env stp st server with ⟨st2, ev, e?⟩
          rw [hres] at hnone
          simp only at hnone
          subst hnone
          have hcfg2 := add_server_log_cfg env stp st server
          rw [hres] at hcfg2
          simp only at hcfg2
          have hloc2 : lookup? s st2.server_to_local_file = none := by
            have hl := add_server_log_local env stp st server
            rw [hres] at hl
            simp only at hl
            rcases hl with hl | ⟨f, hl⟩
            · rw [hl]; exact hloc
            · rw [hl, lookup?_dictSet_ne _ _ (fun he => hss he.symm)]
              exact hloc
          have hs2 : s ∈ rest := by
            rcases List.mem_cons.mp hs with h | h
            · exact absurd h.symm hss
            · exact h
          have IH := ih st2 s hs2 (by rw [hcfg2]; exact hcfg) hloc2
            (by rw [hcfg2]; exact hclean)
          simp only [ensureIndexed, hguard, hres, if_false, Bool.false_eq_true]
          constructor
          · rcases IH.1 with ⟨b, hb1, hb2⟩
            exact ⟨b, hb1, by rw [← hcfg2]; exact hb2⟩
          · intro hmem
            rcases List.mem_append.mp hmem with hm | hm
            · have := add_server_log_events env stp st server (by rw [hres]; exact hm)
              exact hss this.1.symm
            · exact IH.2 hm

/-- C4, amended: a consumed query naming an unconfigured source always
fails with the `KeyError` of a configuration lookup (the condition the
spec names `UnconfiguredSourceError`) for some unconfigured source in
the list, provided the configured sources scan cleanly, and no fetch or
indexing work is ever performed for the unconfigured source itself.
The unamended "before any indexing work occurs for that call" is false:
configured sources listed before the unconfigured one are fetched and
indexed during the same consumed call — see the counterexample. -/
theorem c4_unconfigured_raises (env : String → List String) (stp : String → Option Int)
    (st : LogQueryState) (a : QueryArgs) (s : String)
    (hs : s ∈ a.servers)
    (hcfg : lookup? s st.server_to_remote_file = none)
    (hloc : lookup? s st.server_to_local_file = none)
    (hclean : ∀ srv rem, lookup? srv st.server_to_remote_file = some rem →
      ∀ line ∈ env (get_remote_file rem), lineIndexes stp line = true) :
    (∃ b, (consumeQuery env stp st a).2.2 = .error (.keyError b) ∧
      lookup? b st.server_to_remote_file = none) ∧
    s ∉ (consumeQuery env stp st a).2.1 := by
  have h := ensureIndexed_unconfigured env stp a.servers st s hs hcfg hloc hclean
  have hse := consumeQuery_state_events env stp st a
  rcases hres : ensureIndexed env stp a.servers st with ⟨st2, ev, e?⟩
  rw [hres] at h
  rcases h.1 with ⟨b, hb1, hb2⟩
  simp only at hb1
  subst hb1
  constructor
  · exact ⟨b, by simp [consumeQuery, runQuery, hres], hb2⟩
  · rw [hse.2, hres]
    simp only
    exact h.2

/-- C4 counterexample: querying `["s1", "ghost"]` with `ghost`
unconfigured fetches and indexes `s1` first (the fetch-event list is
`["s1"]`) and only then raises the `KeyError` for `ghost` — so the
error is not raised "before any indexing work occurs for that call". -/
theorem c4_counterexample :
    (runQuery env0 stp0 (initState cfg0) ⟨1610884800, 5, ["s1", "ghost"], 10⟩).2 =
      (["s1"], .error (.keyError "ghost")) := by decide

/-- C4 witness: the amended theorem applied to a query naming the
unconfigured source `ghost` alongside the configured `s1`. -/
theorem c4_witness :
    (∃ b, (consumeQuery env0 stp0 (initState cfg0) ⟨1610884800, 5, ["ghost", "s1"], 10⟩).2.2
        = .error (.keyError b) ∧
      lookup? b (initState cfg0).server_to_remote_file = none) ∧
    "ghost" ∉ (consumeQuery env0 stp0 (initState cfg0) ⟨1610884800, 5, ["ghost", "s1"], 10⟩).2.1 := by
  refine c4_unconfigured_raises env0 stp0 (initState cfg0)
    ⟨1610884800, 5, ["ghost", "s1"], 10⟩ "ghost" (by decide) (by decide) (by decide) ?_
  intro srv rem h
  simp only [initState, cfg0, lookup?] at h
  by_cases h1 : srv = "s1"
  · subst h1
    simp at h
    subst h
    decide
  · by_cases h2 : srv = "s2"
    · subst h2
      simp at h
      subst h
      decide
    · have h1b : ¬("s1" = srv) := fun hh => h1 hh.symm
      have h2b : ¬("s2" = srv) := fun hh => h2 hh.symm
      rw [if_neg h1b, if_neg h2b] at h
      exact absurd h (by simp)

theorem add_server_log_err_eq (env : String → List String) (stp : String → Option Int)
    (st st' : LogQueryState) (server : String)
    (hcfg : st'.server_to_remote_file = st.server_to_remote_file) :
    (add_server_log_to_index env stp st' server).2.2
      = (add_server_log_to_index env stp st server).2.2 := by
  have hc' : lookup? server st'.server_to_remote_file
      = lookup? server st.server_to_remote_file := by rw [hcfg]
  cases hc : lookup? server st.server_to_remote_file with
  | none =>
    rw [hc] at hc'
    simp [add_server_log_to_index, hc, hc']
  | some rem =>
    rw [hc] at hc'
    rcases h1 : add_to_index env stp
        { st' with server_index := dictSet server [] st'.server_index } server
        (get_remote_file rem) with ⟨s1, e1?⟩
    rcases h2 : add_to_index env stp
        { st with server_index := dictSet server [] st.server_index } server
        (get_remote_file rem) with ⟨s2, e2?⟩
    have heq := add_to_index_err_eq env stp
      { st' with server_index := dictSet server [] st'.server_index }
      { st with server_index := dictSet server [] st.server_index } server
      (get_remote_file rem)
    rw [h1, h2] at heq
    simp only at heq
    subst heq
    cases e1? <;> simp [add_server_log_to_index, hc, hc', h1, h2]

theorem add_server_log_local_err (env : String → List String) (stp : String → Option Int)
    (st : LogQueryState) (server : String) (e : QueryError)
    (h : (add_server_log_to_index env stp st server).2.2 = some e) :
    (add_server_log_to_index env stp st server).1.server_to_local_file
      = st.server_to_local_file := by
  cases hc : lookup? server st.server_to_remote_file with
  | none => simp [add_server_log_to_index, hc]
  | some rem =>
    have hfr := add_to_index_frame env stp
      { st with server_index := dictSet server [] st.server_index } server (get_remote_file rem)
    rcases hres : add_to_index env stp
        { st with server_index := dictSet server [] st.server_index } server
        (get_remote_file rem) with ⟨st2, e?⟩
    rw [hres] at hfr
    cases e? with
    | none => simp [add_server_log_to_index, hc, hres] at h
    | some e2 =>
      simp only [add_server_log_to_index, hc, hres]
      simpa using hfr.2

theorem ensureIndexed_all_some (env : String → List String) (stp : String → Option Int) :
    ∀ (servers : List String) (st : LogQueryState),
      (ensureIndexed env stp servers st).2.2 = none →
      ∀ s ∈ servers,
        (lookup? s (ensureIndexed env stp servers st).1.server_to_local_file).isSome := by
  intro servers
  induction servers with
  | nil => intro st _ s hs; simp at hs
  | cons server rest ih =>
    intro st h s hs
    by_cases hguard : (lookup? server st.server_to_local_file).isSome
    · simp only [ensureIndexed, hguard, if_true] at h ⊢
      rcases List.mem_cons.mp hs with hh | hh
      · subst hh
        exact (ensureIndexed_local_mono env stp rest st s hguard).1
      · exact ih st h s hh
    · rcases hres : add_server_log_to_index env stp st server with ⟨st2, ev, e?⟩
      cases e? with
      | none =>
        simp only [ensureIndexed, hguard, hres, if_false, Bool.false_eq_true] at h ⊢
        rcases List.mem_cons.mp hs with hh | hh
        · subst hh
          have hsome : (lookup? s st2.server_to_local_file).isSome := by
            have h2 := add_server_log_local_some env stp st s (by rw [hres])
            rw [hres] at h2
            exact h2
          exact (ensureIndexed_local_mono env stp rest st2 s hsome).1
        · exact ih st2 h s hh
      | some e =>
        simp only [ensureIndexed, hguard, hres, if_false, Bool.false_eq_true] at h
        exact absurd h (by simp)

theorem ensureIndexed_skip_all (env : String → List String) (stp : String → Option Int) :
    ∀ (servers : List String) (st : LogQueryState),
      (∀ s ∈ servers, (lookup? s st.server_to_local_file).isSome) →
      ensureIndexed env stp servers st = (st, [], none) := by
  intro servers
  induction servers with
  | nil => intro st _; rfl
  | cons server rest ih =>
    intro st h
    have hguard := h server (List.mem_cons_self _ _)
    simp only [ensureIndexed, hguard, if_true]
    exact ih st (fun s hs => h s (List.mem_cons_of_mem _ hs))

theorem ensureIndexed_replay (env : String → List String) (stp : String → Option Int)
    (servers : List String) (st : LogQueryState)
    (h : (ensureIndexed env stp servers st).2.2 = none) :
    ensureIndexed env stp servers (ensureIndexed env stp servers st).1
      = ((ensureIndexed env stp servers st).1, [], none) :=
  ensureIndexed_skip_all env stp servers _ (ensureIndexed_all_some env stp servers st h)

theorem ensureIndexed_replay_err (env : String → List String) (stp : String → Option Int) :
    ∀ (servers : List String) (st : LogQueryState) (e : QueryError),
      (ensureIndexed env stp servers st).2.2 = some e →
      (ensureIndexed env stp servers (ensureIndexed env stp servers st).1).2.2 = some e := by
  intro servers
  induction servers with
  | nil => intro st e h; simp [ensureIndexed] at h
  | cons server rest ih =>
    intro st e h
    by_cases hguard : (lookup? server st.server_to_local_file).isSome
    · simp only [ensureIndexed, hguard, if_true] at h ⊢
      have hm := (ensureIndexed_local_mono env stp rest st server hguard).1
      simp only [ensureIndexed, hm, if_true]
      exact ih st e h
    · rcases hres : add_server_log_to_index env stp st server with ⟨st2, ev, e?⟩
      cases e? with
      | none =>
        simp only [ensureIndexed, hguard, hres, if_false, Bool.false_eq_true] at h ⊢
        have hsome : (lookup? server st2.server_to_local_file).isSome := by
          have h2 := add_server_log_local_some env stp st server (by rw [hres])
          rw [hres] at h2
          exact h2
        have hX := (ensureIndexed_local_mono env stp rest st2 server hsome).1
        simp only [ensureIndexed, hX, if_true]
        exact ih st2 e h
      | some e2 =>
        simp only [ensureIndexed, hguard, hres, if_false, Bool.false_eq_true] at h ⊢
        have hl : st2.server_to_local_file = st.server_to_local_file := by
          have h2 := add_server_log_local_err env stp st server e2 (by rw [hres])
          rw [hres] at h2
          exact h2
        have hguard2 : ¬(lookup? server st2.server_to_local_file).isSome = true := by
          rw [hl]
          exact hguard
        have hcfg2 : st2.server_to_remote_file = st.server_to_remote_file := by
          have h2 := add_server_log_cfg env stp st server
          rw [hres] at h2
          exact h2
        have herr := add_server_log_err_eq env stp st st2 server hcfg2
        rcases hres2 : add_server_log_to_index env stp st2 server with ⟨st3, ev2, e3?⟩
        rw [hres2, hres] at herr
        simp only at herr
        subst herr
        simp only [ensureIndexed, hguard2, hres2, if_false, Bool.false_eq_true]
        exact h

/-- C9: running the identical query twice in succession against the
same engine instance yields identical result sequences.  After a
successful first consumption every named server is recorded in
`server_to_local_file`, so the second consumption skips all indexing,
reaches `search` with the identical state, and materializes the same
lines; after a failed first consumption the second one fails with the
identical exception. -/
theorem c9_idempotent (env : String → List String) (stp : String → Option Int)
    (st : LogQueryState) (a : QueryArgs) :
    (consumeQuery env stp (consumeQuery env stp st a).1 a).2.2
      = (consumeQuery env stp st a).2.2 := by
  have hse := consumeQuery_state_events env stp st a
  rcases hres : ensureIndexed env stp a.servers st with ⟨st1, ev, e?⟩
  have hst1 : (consumeQuery env stp st a).1 = st1 := by rw [hse.1, hres]
  cases e? with
  | some e =>
    have hrep := ensureIndexed_replay_err env stp a.servers st e (by rw [hres])
    rw [hres] at hrep
    simp only at hrep
    rcases hres2 : ensureIndexed env stp a.servers st1 with ⟨st2, ev2, e2?⟩
    rw [hres2] at hrep
    simp only at hrep
    subst hrep
    rw [hst1]
    simp [consumeQuery, runQuery, hres, hres2]
  | none =>
    have hrep := ensureIndexed_replay env stp a.servers st (by rw [hres])
    rw [hres] at hrep
    simp only at hrep
    rw [hst1]
    simp only [consumeQuery, runQuery, hres, hrep]
    cases search st1 a.servers a.min_severity (to_epoch_seconds a.start) a.entries <;> rfl

/-! Specifications of the split helpers, towards the parse-shape
equivalence of C5. -/

theorem splitLast_eq_none {c : Char} :
    ∀ {l : List Char}, splitLast c l = none ↔ c ∉ l := by
  intro l
  induction l with
  | nil => simp [splitLast]
  | cons x xs ih =>
    simp only [splitLast]
    cases h : splitLast c xs with
    | some p =>
      have hmem : c ∈ xs := by
        by_contra hc
        rw [ih.mpr hc] at h
        simp at h
      simp [hmem]
    | none =>
      by_cases hx : x = c
      · subst hx
        simp
      · have hcx : c ≠ x := fun hh => hx hh.symm
        simp [hx, hcx, ih.mp h]

theorem splitLast_eq_some {c : Char} :
    ∀ {l : List Char} {b a : List Char}, splitLast c l = some (b, a) →
      l = b ++ c :: a ∧ c ∉ a := by
  intro l
  induction l with
  | nil => intro b a h; simp [splitLast] at h
  | cons x xs ih =>
    intro b a h
    simp only [splitLast] at h
    cases h2 : splitLast c xs with
    | some p =>
      rw [h2] at h
      rcases p with ⟨pb, pa⟩
      simp only [Option.some.injEq, Prod.mk.injEq] at h
      obtain ⟨hb, ha⟩ := h
      obtain ⟨hxs, hpa⟩ := ih h2
      subst hb
      subst ha
      exact ⟨by rw [hxs]; simp, hpa⟩
    | none =>
      rw [h2] at h
      by_cases hx : x = c
      · rw [if_pos hx] at h
        simp only [Option.some.injEq, Prod.mk.injEq] at h
        obtain ⟨hb, ha⟩ := h
        subst hb
        subst ha
        subst hx
        exact ⟨by simp, splitLast_eq_none.mp h2⟩
      · rw [if_neg hx] at h
        simp at h

theorem splitLastBrack_eq_some :
    ∀ {l b a : List Char}, splitLastBrack l = some (b, a) →
      l = b ++ ']' :: '[' :: a := by
  intro l
  induction l with
  | nil => intro b a h; simp [splitLastBrack] at h
  | cons x tail ih =>
    intro b a h
    cases tail with
    | nil => simp [splitLastBrack] at h
    | cons y xs =>
      simp only [splitLastBrack] at h
      cases h2 : splitLastBrack (y :: xs) with
      | some p =>
        rw [h2] at h
        rcases p with ⟨pb, pa⟩
        simp only [Option.some.injEq, Prod.mk.injEq] at h
        obtain ⟨hb, ha⟩ := h
        subst hb
        subst ha
        rw [ih h2]
        simp
      | none =>
        rw [h2] at h
        by_cases hxy : x = ']' ∧ y = '['
        · rw [if_pos hxy] at h
          simp only [Option.some.injEq, Prod.mk.injEq] at h
          obtain ⟨hb, ha⟩ := h
          subst hb
          subst ha
          simp [hxy.1, hxy.2]
        · rw [if_neg hxy] at h
          simp at h

theorem splitLastBrack_isSome :
    ∀ (b a : List Char), (splitLastBrack (b ++ ']' :: '[' :: a)).isSome := by
  intro b
  induction b with
  | nil =>
    intro a
    simp only [List.nil_append, splitLastBrack]
    cases h : splitLastBrack ('[' :: a) <;> simp

  | cons x xs ih =>
    intro a
    cases hxs : xs ++ ']' :: '[' :: a with
    | nil => simp at hxs
    | cons w ws =>
      have hrw : (x :: xs) ++ ']' :: '[' :: a = x :: w :: ws := by
        rw [List.cons_append, hxs]
      rw [hrw]
      simp only [splitLastBrack]
      have hsome := ih a
      rw [hxs] at hsome
      cases h : splitLastBrack (w :: ws) with
      | some p => simp
      | none =>
        rw [h] at hsome
        simp at hsome

theorem takeWhile_append_all {p : Char → Bool} :
    ∀ (l₁ l₂ : List Char), (∀ c ∈ l₁, p c = true) →
      (l₁ ++ l₂).takeWhile p = l₁ ++ l₂.takeWhile p := by
  intro l₁
  induction l₁ with
  | nil => simp
  | cons x xs ih =>
    intro l₂ h
    rw [List.cons_append, List.takeWhile_cons, if_pos (h x (List.mem_cons_self _ _)),
      ih l₂ (fun c hc => h c (List.mem_cons_of_mem _ hc)), List.cons_append]

theorem mem_takeWhile {p : Char → Bool} :
    ∀ {l : List Char} {c : Char}, c ∈ l.takeWhile p → p c = true := by
  intro l
  induction l with
  | nil => intro c h; simp at h
  | cons x xs ih =>
    intro c h
    rw [List.takeWhile_cons] at h
    by_cases hx : p x
    · rw [if_pos hx] at h
      rcases List.mem_cons.mp h with hh | hh
      · rw [hh]; exact hx
      · exact ih hh
    · rw [if_neg hx] at h
      simp at h

theorem last_bracket_suffix :
    ∀ (A B D U C2 : List Char),
      A ++ ']' :: '[' :: B ++ ']' :: D = U ++ ']' :: C2 → ']' ∉ C2 →
      ∃ W, U = A ++ ']' :: '[' :: W := by
  intro A
  induction A with
  | nil =>
    intro B D U C2 heq hC
    cases U with
    | nil =>
      exfalso
      apply hC
      simp only [List.nil_append] at heq
      injection heq with h1 h2
      rw [← h2]
      simp
    | cons u U2 =>
      simp only [List.nil_append, List.cons_append] at heq
      injection heq with h1 h2
      cases U2 with
      | nil =>
        exfalso
        simp only [List.nil_append] at h2
        injection h2 with h3 h4
        simp at h3
      | cons v U3 =>
        simp only [List.cons_append] at h2
        injection h2 with h3 h4
        exact ⟨U3, by rw [List.nil_append, ← h1, ← h3]⟩
  | cons a A2 ih =>
    intro B D U C2 heq hC
    cases U with
    | nil =>
      exfalso
      apply hC
      simp only [List.cons_append, List.nil_append] at heq
      injection heq with h1 h2
      rw [← h2]
      simp
    | cons u U2 =>
      simp only [List.cons_append] at heq
      injection heq with h1 h2
      obtain ⟨W, hW⟩ := ih B D U2 C2 h2 hC
      refine ⟨W, ?_⟩
      rw [List.cons_append, ← h1, hW]

theorem parse_line_cons (x : Char) (rest : List Char) (line : String)
    (hdata : line.data = x :: rest) :
    parse_line line = (if x = '[' then
      match splitLast ']' (rest.takeWhile (fun c => c ≠ '\n')) with
      | none => .error .malformedLine
      | some (U, C) =>
        match splitLastBrack U with
        | none => .error .malformedLine
        | some (A, B) => .ok (String.mk A, String.mk B, String.mk C)
    else .error .malformedLine) := by
  unfold parse_line
  rw [hdata]

theorem parse_line_nil (line : String) (hdata : line.data = []) :
    parse_line line = .error .malformedLine := by
  unfold parse_line
  rw [hdata]

theorem parse_line_ok_iff (line : String) :
    (∃ g, parse_line line = .ok g) ↔ SpecShape line := by
  constructor
  · rintro ⟨⟨d, s, c⟩, h⟩
    cases hdata : line.data with
    | nil => rw [parse_line_nil line hdata] at h; simp at h
    | cons x rest =>
      rw [parse_line_cons x rest line hdata] at h
      by_cases hx : x = '['
      · rw [if_pos hx] at h
        cases hS : splitLast ']' (rest.takeWhile (fun ch => ch ≠ '\n')) with
        | none => simp only [hS] at h; exact absurd h (by simp)
        | some p =>
          rcases p with ⟨U, C⟩
          simp only [hS] at h
          cases hB : splitLastBrack U with
          | none => simp only [hB] at h; exact absurd h (by simp)
          | some q =>
            rcases q with ⟨A, B⟩
            obtain ⟨hT, hCnotin⟩ := splitLast_eq_some hS
            have hU := splitLastBrack_eq_some hB
            refine ⟨A, B, C ++ rest.dropWhile (fun ch => ch ≠ '\n'), ?_, ?_, ?_⟩
            · intro ch hch
              have hchT : ch ∈ rest.takeWhile (fun ch => decide (ch ≠ '\n')) := by
                rw [hT, hU]
                simp [hch]
              simpa using mem_takeWhile hchT
            · intro ch hch
              have hchT : ch ∈ rest.takeWhile (fun ch => decide (ch ≠ '\n')) := by
                rw [hT, hU]
                simp [hch]
              simpa using mem_takeWhile hchT
            · rw [hdata, hx]
              have hrest : rest = rest.takeWhile (fun ch => decide (ch ≠ '\n'))
                  ++ rest.dropWhile (fun ch => decide (ch ≠ '\n')) :=
                (List.takeWhile_append_dropWhile _ _).symm
              conv_lhs => rw [hrest, hT, hU]
              simp
      · rw [if_neg hx] at h
        simp at h
  · rintro ⟨A, B, C, hA, hB, hdata⟩
    have hA2 : ∀ ch ∈ A, (decide (ch ≠ '\n')) = true := fun ch hc => by
      simpa using hA ch hc
    have hB2 : ∀ ch ∈ B, (decide (ch ≠ '\n')) = true := fun ch hc => by
      simpa using hB ch hc
    rw [parse_line_cons '[' (A ++ ']' :: '[' :: (B ++ ']' :: C)) line hdata, if_pos rfl]
    have hT : (A ++ ']' :: '[' :: (B ++ ']' :: C)).takeWhile (fun ch => decide (ch ≠ '\n'))
        = A ++ ']' :: '[' :: (B ++ ']' :: C.takeWhile (fun ch => decide (ch ≠ '\n'))) := by
      rw [takeWhile_append_all A _ hA2, List.takeWhile_cons, if_pos (by decide),
        List.takeWhile_cons, if_pos (by decide),
        takeWhile_append_all B _ hB2, List.takeWhile_cons, if_pos (by decide)]
    rw [hT]
    cases hS : splitLast ']'
        (A ++ ']' :: '[' :: (B ++ ']' :: C.takeWhile (fun ch => decide (ch ≠ '\n')))) with
    | none =>
      exfalso
      have := splitLast_eq_none.mp hS
      simp at this
    | some p =>
      rcases p with ⟨U, C2⟩
      obtain ⟨hTU, hC2⟩ := splitLast_eq_some hS
      obtain ⟨W, hW⟩ := last_bracket_suffix A B
        (C.takeWhile (fun ch => decide (ch ≠ '\n'))) U C2 (by simpa using hTU) hC2
      have hsome := splitLastBrack_isSome A W
      rw [← hW] at hsome
      simp only [hS]
      cases hB3 : splitLastBrack U with
      | none => rw [hB3] at hsome; simp at hsome
      | some q =>
        simp only [hB3]
        exact ⟨(String.mk q.1, String.mk q.2, String.mk C2), by rw [← Prod.mk.eta (p := q)]⟩

theorem parse_line_error_malformed {line : String} {e : QueryError}
    (h : parse_line line = .error e) : e = .malformedLine := by
  cases hdata : line.data with
  | nil =>
    rw [parse_line_nil line hdata] at h
    exact (Except.error.inj h).symm
  | cons x rest =>
    rw [parse_line_cons x rest line hdata] at h
    by_cases hx : x = '['
    · rw [if_pos hx] at h
      cases hS : splitLast ']' (rest.takeWhile (fun ch => ch ≠ '\n')) with
      | none =>
        simp only [hS] at h
        exact (Except.error.inj h).symm
      | some p =>
        rcases p with ⟨U, C⟩
        simp only [hS] at h
        cases hB : splitLastBrack U with
        | none =>
          simp only [hB] at h
          exact (Except.error.inj h).symm
        | some q =>
          rcases q with ⟨A, B⟩
          simp only [hB] at h
          simp at h
    · rw [if_neg hx] at h
      exact (Except.error.inj h).symm

theorem parse_line_err_iff (line : String) :
    parse_line line = .error .malformedLine ↔ ¬SpecShape line := by
  constructor
  · intro h hshape
    rcases (parse_line_ok_iff line).mpr hshape with ⟨g, hg⟩
    rw [h] at hg
    simp at hg
  · intro h
    cases hres : parse_line line with
    | error e => rw [parse_line_error_malformed hres]
    | ok g => exact absurd ((parse_line_ok_iff line).mp ⟨g, hres⟩) h

theorem lookup?_eq_none_iff {κ α : Type} [DecidableEq κ] (k : κ) (d : List (κ × α)) :
    lookup? k d = none ↔ k ∉ d.map Prod.fst := by
  induction d with
  | nil => simp [lookup?]
  | cons p ps ih =>
    by_cases h : p.1 = k
    · simp [lookup?, h]
    · have h2 : ¬(k = p.1) := fun hh => h hh.symm
      simp [lookup?, h, h2, ih]

theorem lookup?_eq_of_mem {κ α : Type} [DecidableEq κ] {k : κ} {v : α} {d : List (κ × α)}
    (hnd : (d.map Prod.fst).Nodup) (h : (k, v) ∈ d) : lookup? k d = some v := by
  induction d with
  | nil => simp at h
  | cons p ps ih =>
    rcases List.mem_cons.mp h with hh | hh
    · rw [← hh]
      simp [lookup?]
    · have hk : k ∈ ps.map Prod.fst := List.mem_map.mpr ⟨(k, v), hh, rfl⟩
      have hp : p.1 ≠ k := by
        intro he
        rw [List.map_cons] at hnd
        exact (List.nodup_cons.mp hnd).1 (he ▸ hk)
      simp only [lookup?, if_neg hp]
      exact ih (List.nodup_cons.mp (by rw [List.map_cons] at hnd; exact hnd)).2 hh

/-- C5, amended: `_parse_line` succeeds exactly on lines of the
bracketed-prefix shape (so the `MalformedLineError` condition is exactly
a shape mismatch), but the severity stage accepts exactly the severity
strings whose uppercase image is an attribute of the `logging` module
whose name is a fixed point of `str.upper` — the standard level names
and their aliases, plus `BASIC_FORMAT` (a format string) and `_STYLES`
(a dict), neither of which is a severity level name.  "Fails exactly
when the severity is not a recognized standard severity level name" is
therefore false — see the counterexample. -/
theorem c5_parse_and_severity :
    (∀ line : String,
      ((∃ g, parse_line line = .ok g) ↔ SpecShape line) ∧
      (parse_line line = .error .malformedLine ↔ ¬SpecShape line)) ∧
    (∀ sev : String,
      (getSeverityAttr sev = .error .unknownSeverity ↔
        pyUpper sev ∉ loggingUpperAttrs.map Prod.fst) ∧
      (∀ v, (pyUpper sev, v) ∈ loggingUpperAttrs → getSeverityAttr sev = .ok v)) := by
  refine ⟨fun line => ⟨parse_line_ok_iff line, parse_line_err_iff line⟩, fun sev => ⟨?_, ?_⟩⟩
  · unfold getSeverityAttr
    cases h : lookup? (pyUpper sev) loggingUpperAttrs with
    | none => simp [(lookup?_eq_none_iff _ _).mp h]
    | some v =>
      have : pyUpper sev ∈ loggingUpperAttrs.map Prod.fst := by
        by_contra hc
        rw [(lookup?_eq_none_iff _ loggingUpperAttrs).mpr hc] at h
        simp at h
      simp [this]
  · intro v hv
    unfold getSeverityAttr
    rw [lookup?_eq_of_mem (by decide) hv]

/-- C5 counterexample: the line
`[2021-01-17 12:00:00][basic_format] x` parses, and its severity string
`basic_format` is accepted by the reflective lookup (it uppercases to
the `logging.BASIC_FORMAT` attribute, a format string), although it is
not a recognized standard severity level name — so parsing does not
fail with `UnknownSeverityError` where the claim requires it to.
Likewise the severity string `_styles` is accepted (it uppercases to
`logging._STYLES`, a dict), and a line carrying it then raises
`TypeError` when the indexer hashes the dict as a severity-index
key. -/
theorem c5_counterexample :
    parse_line "[2021-01-17 12:00:00][basic_format] x"
        = .ok ("2021-01-17 12:00:00", "basic_format", " x") ∧
    pyUpper "basic_format" = "BASIC_FORMAT" ∧
    getSeverityAttr "basic_format" = .ok (.str "%(levelname)s:%(name)s:%(message)s") ∧
    "BASIC_FORMAT" ∉ specSeverityNames ∧
    pyUpper "_styles" = "_STYLES" ∧
    getSeverityAttr "_styles" = .ok .stylesDict ∧
    "_STYLES" ∉ specSeverityNames ∧
    (indexLines stp0 "s1" 1 ["[2021-01-17 12:00:00][_styles] x"] (initState cfg0)).2
        = some .typeError := by
  exact ⟨by decide, by decide, by decide, by decide, by decide, by decide, by decide,
    by decide⟩

/-- C5 witness: the amended theorem applied to a well-formed line and
the severity string `error`. -/
theorem c5_witness :
    (∃ g, parse_line "[2021-01-17 12:00:05][error] boom" = .ok g) ∧
    getSeverityAttr "error" = .ok (.int 40) := by
  constructor
  · refine (c5_parse_and_severity.1 _).1.mpr
      ⟨"2021-01-17 12:00:05".data, "error".data, " boom".data, ?_, ?_, ?_⟩
    · decide
    · decide
    · decide
  · exact (c5_parse_and_severity.2 "error").2 (.int 40) (by decide)

/-! Order facts about the heap tuple order and the sorted indexes. -/

theorem heapLeb_iff (a b : HeapItem) : heapLeb a b = true ↔
    (a.ts < b.ts ∨ (a.ts = b.ts ∧ (a.server < b.server ∨ (a.server = b.server ∧
      (a.line < b.line ∨ (a.line = b.line ∧ a.idx ≤ b.idx)))))) := by
  unfold heapLeb
  simp [Bool.or_eq_true, Bool.and_eq_true, decide_eq_true_eq]

theorem heapLeb_ts {a b : HeapItem} (h : heapLeb a b = true) : a.ts ≤ b.ts := by
  rcases (heapLeb_iff a b).mp h with h1 | ⟨h1, _⟩ <;> omega

theorem heapLeb_total (a b : HeapItem) : heapLeb a b = true ∨ heapLeb b a = true := by
  rw [heapLeb_iff, heapLeb_iff]
  rcases lt_trichotomy a.ts b.ts with h | h | h
  · exact Or.inl (Or.inl h)
  · rcases lt_trichotomy a.server b.server with h2 | h2 | h2
    · exact Or.inl (Or.inr ⟨h, Or.inl h2⟩)
    · rcases lt_trichotomy a.line b.line with h3 | h3 | h3
      · exact Or.inl (Or.inr ⟨h, Or.inr ⟨h2, Or.inl h3⟩⟩)
      · by_cases h4 : a.idx ≤ b.idx
        · exact Or.inl (Or.inr ⟨h, Or.inr ⟨h2, Or.inr ⟨h3, h4⟩⟩⟩)
        · exact Or.inr (Or.inr ⟨h.symm, Or.inr ⟨h2.symm, Or.inr ⟨h3.symm, by omega⟩⟩⟩)
      · exact Or.inr (Or.inr ⟨h.symm, Or.inr ⟨h2.symm, Or.inl h3⟩⟩)
    · exact Or.inr (Or.inr ⟨h.symm, Or.inl h2⟩)
  · exact Or.inr (Or.inl h)

theorem heapLeb_trans {a b c : HeapItem} (h1 : heapLeb a b = true)
    (h2 : heapLeb b c = true) : heapLeb a c = true := by
  rw [heapLeb_iff] at h1 h2 ⊢
  rcases h1 with h1 | ⟨e1, h1⟩
  · rcases h2 with h2 | ⟨e2, h2⟩
    · exact Or.inl (by omega)
    · exact Or.inl (by omega)
  · rcases h2 with h2 | ⟨e2, h2⟩
    · exact Or.inl (by omega)
    · refine Or.inr ⟨by omega, ?_⟩
      rcases h1 with h1 | ⟨f1, h1⟩
      · rcases h2 with h2 | ⟨f2, h2⟩
        · exact Or.inl (lt_trans h1 h2)
        · exact Or.inl (by rw [← f2]; exact h1)
      · rcases h2 with h2 | ⟨f2, h2⟩
        · exact Or.inl (by rw [f1]; exact h2)
        · refine Or.inr ⟨f1.trans f2, ?_⟩
          rcases h1 with h1 | ⟨g1, h1⟩
          · rcases h2 with h2 | ⟨g2, h2⟩
            · exact Or.inl (by omega)
            · exact Or.inl (by omega)
          · rcases h2 with h2 | ⟨g2, h2⟩
            · exact Or.inl (by omega)
            · exact Or.inr ⟨by omega, by omega⟩

theorem mem_heapPush {x y : HeapItem} :
    ∀ {l : List HeapItem}, y ∈ heapPush x l ↔ y = x ∨ y ∈ l := by
  intro l
  induction l with
  | nil => simp [heapPush]
  | cons z zs ih =>
    simp only [heapPush]
    split
    · simp only [List.mem_cons, ih]
      try tauto
    · simp only [List.mem_cons]
      try tauto

theorem pairwise_heapPush {x : HeapItem} :
    ∀ {l : List HeapItem}, List.Pairwise (fun a b => heapLeb a b = true) l →
      List.Pairwise (fun a b => heapLeb a b = true) (heapPush x l) := by
  intro l
  induction l with
  | nil => intro _; simp [heapPush]
  | cons y ys ih =>
    intro h
    rw [List.pairwise_cons] at h
    simp only [heapPush]
    split
    · rename_i hy
      rw [List.pairwise_cons]
      refine ⟨?_, ih h.2⟩
      intro z hz
      rcases mem_heapPush.mp hz with hz | hz
      · rw [hz]; exact hy
      · exact h.1 z hz
    · rename_i hy
      have hxy : heapLeb x y = true := by
        rcases heapLeb_total x y with hh | hh
        · exact hh
        · exact absurd hh hy
      rw [List.pairwise_cons]
      refine ⟨?_, List.pairwise_cons.mpr h⟩
      intro z hz
      rcases List.mem_cons.mp hz with hz | hz
      · rw [hz]; exact hxy
      · exact heapLeb_trans hxy (h.1 z hz)

theorem chain'_replicate {α : Type} {R : α → α → Prop} {a : α} (h : R a a) (n : Nat) :
    List.Chain' R (List.replicate n a) := by
  induction n with
  | zero => simp
  | succ m ih =>
    cases m with
    | zero => simp
    | succ m2 =>
      rw [List.replicate_succ]
      rw [List.replicate_succ]
      refine List.Chain'.cons h ?_
      rw [← List.replicate_succ]
      exact ih

theorem lookup?_mem {κ α : Type} [DecidableEq κ] {k : κ} {v : α} :
    ∀ {d : List (κ × α)}, lookup? k d = some v → (k, v) ∈ d := by
  intro d
  induction d with
  | nil => intro h; simp [lookup?] at h
  | cons p ps ih =>
    intro h
    simp only [lookup?] at h
    by_cases hp : p.1 = k
    · rw [if_pos hp] at h
      simp only [Option.some.injEq] at h
      have hpv : p = (k, v) := by
        rcases p with ⟨p1, p2⟩
        simp only at hp h
        rw [hp, h]
      rw [← hpv]
      exact List.mem_cons_self _ _
    · rw [if_neg hp] at h
      exact List.mem_cons_of_mem _ (ih h)

theorem mem_dictSet {κ α : Type} [DecidableEq κ] {k : κ} {v : α} {p : κ × α} :
    ∀ {d : List (κ × α)}, p ∈ dictSet k v d → p ∈ d ∨ p = (k, v) := by
  intro d
  induction d with
  | nil => intro h; simp [dictSet] at h; exact Or.inr h
  | cons q qs ih =>
    intro h
    simp only [dictSet] at h
    split at h
    · rcases List.mem_cons.mp h with hh | hh
      · exact Or.inr hh
      · exact Or.inl (List.mem_cons_of_mem _ hh)
    · rcases List.mem_cons.mp h with hh | hh
      · exact Or.inl (by rw [hh]; exact List.mem_cons_self _ _)
      · rcases ih hh with hh2 | hh2
        · exact Or.inl (List.mem_cons_of_mem _ hh2)
        · exact Or.inr hh2

theorem bisectLeftKey_getElem {α : Type} (key : α → Int) (k : Int) :
    ∀ (l : List α) (y : α), l[bisectLeftKey key k l]? = some y → k ≤ key y := by
  intro l
  induction l with
  | nil => intro y h; simp at h
  | cons hd tl ih =>
    intro y h
    simp only [bisectLeftKey] at h
    by_cases hh : key hd < k
    · rw [if_pos hh] at h
      rw [List.getElem?_cons_succ] at h
      exact ih y h
    · rw [if_neg hh] at h
      rw [List.getElem?_cons_zero] at h
      simp only [Option.some.injEq] at h
      rw [← h]
      omega

theorem chain'_getElem_le {l : List (Int × Nat)}
    (h : List.Chain' (fun u v : Int × Nat => u.1 ≤ v.1) l) {i : Nat} {u v : Int × Nat}
    (hu : l[i]? = some u) (hv : l[i + 1]? = some v) : u.1 ≤ v.1 := by
  obtain ⟨hiu, hgu⟩ := List.getElem?_eq_some.mp hu
  obtain ⟨hiv, hgv⟩ := List.getElem?_eq_some.mp hv
  have h2 := List.chain'_iff_get.mp h i (by omega)
  rw [List.get_eq_getElem, List.get_eq_getElem] at h2
  rw [← hgu, ← hgv]
  exact h2

theorem drop_cons {α : Type} {l : List α} {k : Nat} {x : α} {xs : List α}
    (h : l.drop k = x :: xs) : l[k]? = some x ∧ xs = l.drop (k + 1) := by
  constructor
  · have h2 : (l.drop k)[0]? = some x := by rw [h]; simp
    rw [List.getElem?_drop] at h2
    simpa using h2
  · have h2 : (l.drop k).tail = xs := by rw [h]; rfl
    rw [← h2, List.tail_drop]

/-! Behaviour of the severity scan and the merge loop. -/

theorem sevScan_spec (min_severity : Int) (t : Triple) (entries : Int) :
    ∀ (buckets : List (PyVal × List Triple)) (result res : List Triple) (fl : Bool),
      sevScan min_severity t entries buckets result = .ok (res, fl) →
      res = result ∨ (∃ n : Nat, res = result ++ List.replicate (n + 1) t) ∧
        ∃ v b, (PyVal.int v, b) ∈ buckets ∧ min_severity ≤ v ∧ t ∈ b := by
  intro buckets
  induction buckets with
  | nil =>
    intro result res fl h
    simp only [sevScan, Except.ok.injEq, Prod.mk.injEq] at h
    exact Or.inl h.1.symm
  | cons p rest ih =>
    intro result res fl h
    rcases p with ⟨k, bucket⟩
    cases k with
    | str s => simp [sevScan] at h
    | stylesDict => simp [sevScan] at h
    | int v =>
      simp only [sevScan] at h
      by_cases hc : min_severity ≤ v ∧ t ∈ bucket
      · rw [if_pos hc] at h
        by_cases hlen : entries ≤ ((result ++ [t]).length : Int)
        · rw [if_pos hlen] at h
          simp only [Except.ok.injEq, Prod.mk.injEq] at h
          refine Or.inr ⟨⟨0, ?_⟩, v, bucket, List.mem_cons_self _ _, hc.1, hc.2⟩
          rw [← h.1]
          simp
        · rw [if_neg hlen] at h
          rcases ih (result ++ [t]) res fl h with h2 | ⟨⟨n, h2⟩, _⟩
          · refine Or.inr ⟨⟨0, ?_⟩, v, bucket, List.mem_cons_self _ _, hc.1, hc.2⟩
            rw [h2]
            simp
          · refine Or.inr ⟨⟨n + 1, ?_⟩, v, bucket, List.mem_cons_self _ _, hc.1, hc.2⟩
            rw [h2, List.append_assoc]
            simp [List.replicate_succ]
      · rw [if_neg hc] at h
        rcases ih result res fl h with h2 | ⟨⟨n, h2⟩, v2, b2, hmem, hv2, htb⟩
        · exact Or.inl h2
        · exact Or.inr ⟨⟨n, h2⟩, v2, b2, List.mem_cons_of_mem _ hmem, hv2, htb⟩

theorem sevScan_mem (min_severity : Int) (t : Triple) (entries : Int)
    {buckets : List (PyVal × List Triple)} {result res : List Triple} {fl : Bool}
    (h : sevScan min_severity t entries buckets result = .ok (res, fl)) :
    ∀ u ∈ res, u ∈ result ∨ u = t := by
  intro u hu
  rcases sevScan_spec min_severity t entries buckets result res fl h with h2 | ⟨⟨n, h2⟩, _⟩
  · exact Or.inl (h2 ▸ hu)
  · rw [h2] at hu
    rcases List.mem_append.mp hu with hh | hh
    · exact Or.inl hh
    · exact Or.inr (List.eq_of_mem_replicate hh)

theorem seedHeap_inv (sidx : List (String × List (Int × Nat))) (se : Int) :
    ∀ (servers : List String) (heap heap2 : List HeapItem),
      seedHeap sidx se servers heap = .ok heap2 →
      (∀ item ∈ heap,
        (lookupIdx sidx item.server)[item.idx]? = some (item.ts, item.line) ∧
          se ≤ item.ts) →
      ∀ item ∈ heap2,
        (lookupIdx sidx item.server)[item.idx]? = some (item.ts, item.line) ∧
          se ≤ item.ts := by
  intro servers
  induction servers with
  | nil =>
    intro heap heap2 h hinv
    simp only [seedHeap, Except.ok.injEq] at h
    exact h ▸ hinv
  | cons server rest ih =>
    intro heap heap2 h hinv
    simp only [seedHeap] at h
    cases hg : (lookupIdx sidx server)[bisectLeftKey (fun p => p.1) se
        (lookupIdx sidx server)]? with
    | none => rw [hg] at h; simp at h
    | some pr =>
      rcases pr with ⟨timestamp, line_number⟩
      rw [hg] at h
      refine ih _ heap2 h ?_
      intro item hitem
      rcases mem_heapPush.mp hitem with hh | hh
      · subst hh
        exact ⟨hg, bisectLeftKey_getElem (fun p : Int × Nat => p.1) se
          (lookupIdx sidx server) (timestamp, line_number) hg⟩
      · exact hinv item hh

theorem seedHeap_pairwise (sidx : List (String × List (Int × Nat))) (se : Int) :
    ∀ (servers : List String) (heap heap2 : List HeapItem),
      seedHeap sidx se servers heap = .ok heap2 →
      List.Pairwise (fun a b => heapLeb a b = true) heap →
      List.Pairwise (fun a b => heapLeb a b = true) heap2 := by
  intro servers
  induction servers with
  | nil =>
    intro heap heap2 h hp
    simp only [seedHeap, Except.ok.injEq] at h
    exact h ▸ hp
  | cons server rest ih =>
    intro heap heap2 h hp
    simp only [seedHeap] at h
    cases hg : (lookupIdx sidx server)[bisectLeftKey (fun p => p.1) se
        (lookupIdx sidx server)]? with
    | none => rw [hg] at h; simp at h
    | some pr =>
      rcases pr with ⟨timestamp, line_number⟩
      rw [hg] at h
      exact ih _ heap2 h (pairwise_heapPush hp)

theorem searchLoop_cons_err (sidx : List (String × List (Int × Nat)))
    (sevIdx : List (PyVal × List Triple)) (ms ent : Int) (item : HeapItem)
    (rest : List HeapItem) (result : List Triple) (e : QueryError)
    (hscan : sevScan ms (item.ts, item.server, item.line) ent sevIdx result
      = .error e) :
    searchLoop sidx sevIdx ms ent (item :: rest) result = .error e := by
  simp only [searchLoop, hscan]

theorem searchLoop_cons_done (sidx : List (String × List (Int × Nat)))
    (sevIdx : List (PyVal × List Triple)) (ms ent : Int) (item : HeapItem)
    (rest : List HeapItem) (result result2 : List Triple)
    (hscan : sevScan ms (item.ts, item.server, item.line) ent sevIdx result
      = .ok (result2, true)) :
    searchLoop sidx sevIdx ms ent (item :: rest) result = .ok result2 := by
  simp only [searchLoop, hscan]

theorem searchLoop_cons_push (sidx : List (String × List (Int × Nat)))
    (sevIdx : List (PyVal × List Triple)) (ms ent : Int) (item : HeapItem)
    (rest : List HeapItem) (result result2 : List Triple) (next_ts : Int)
    (next_line : Nat)
    (hscan : sevScan ms (item.ts, item.server, item.line) ent sevIdx result
      = .ok (result2, false))
    (hget : (lookupIdx sidx item.server)[item.idx + 1]? = some (next_ts, next_line)) :
    searchLoop sidx sevIdx ms ent (item :: rest) result
      = searchLoop sidx sevIdx ms ent
          (heapPush ⟨next_ts, item.server, next_line, item.idx + 1⟩ rest) result2 := by
  simp only [searchLoop, hscan]
  split
  · rename_i nt2 nl2 hget2
    rw [hget] at hget2
    simp only [Option.some.injEq, Prod.mk.injEq] at hget2
    rw [hget2.1, hget2.2]
  · rename_i hget2
    rw [hget] at hget2
    simp at hget2

theorem searchLoop_cons_nopush (sidx : List (String × List (Int × Nat)))
    (sevIdx : List (PyVal × List Triple)) (ms ent : Int) (item : HeapItem)
    (rest : List HeapItem) (result result2 : List Triple)
    (hscan : sevScan ms (item.ts, item.server, item.line) ent sevIdx result
      = .ok (result2, false))
    (hget : (lookupIdx sidx item.server)[item.idx + 1]? = none) :
    searchLoop sidx sevIdx ms ent (item :: rest) result
      = searchLoop sidx sevIdx ms ent rest result2 := by
  simp only [searchLoop, hscan]
  split
  · rename_i nt2 nl2 hget2
    rw [hget] at hget2
    simp at hget2
  · rfl

theorem searchLoop_mem (sidx : List (String × List (Int × Nat)))
    (sevIdx : List (PyVal × List Triple)) (ms ent : Int) :
    ∀ (heap : List HeapItem) (result : List Triple),
      ∀ res, searchLoop sidx sevIdx ms ent heap result = .ok res →
        (∀ u ∈ result, ∃ v b, (PyVal.int v, b) ∈ sevIdx ∧ ms ≤ v ∧ u ∈ b) →
        ∀ u ∈ res, ∃ v b, (PyVal.int v, b) ∈ sevIdx ∧ ms ≤ v ∧ u ∈ b := by
  intro heap result
  induction heap, result using searchLoop.induct sidx sevIdx ms ent with
  | case1 result =>
    intro res h hgood
    simp only [searchLoop, Except.ok.injEq] at h
    exact h ▸ hgood
  | case2 item rest result e hscan =>
    intro res h hgood
    simp only [searchLoop, hscan] at h
    exact absurd h (by simp)
  | case3 item rest result result2 hscan =>
    intro res h hgood
    simp only [searchLoop, hscan, Except.ok.injEq] at h
    subst h
    intro u hu
    rcases sevScan_spec ms (item.ts, item.server, item.line) ent sevIdx result result2 true
        hscan with h2 | ⟨⟨n, h2⟩, v, b, hmem, hv, htb⟩
    · exact hgood u (h2 ▸ hu)
    · rw [h2] at hu
      rcases List.mem_append.mp hu with hh | hh
      · exact hgood u hh
      · rw [List.eq_of_mem_replicate hh]
        exact ⟨v, b, hmem, hv, htb⟩
  | case4 item rest result result2 hscan l next_ts next_line hget ih =>
    intro res h hgood
    rw [searchLoop_cons_push sidx sevIdx ms ent item rest result result2 next_ts next_line
      hscan hget] at h
    refine ih res h ?_
    intro u hu
    rcases sevScan_spec ms (item.ts, item.server, item.line) ent sevIdx result result2 false
        hscan with h2 | ⟨⟨n, h2⟩, v, b, hmem, hv, htb⟩
    · exact hgood u (h2 ▸ hu)
    · rw [h2] at hu
      rcases List.mem_append.mp hu with hh | hh
      · exact hgood u hh
      · rw [List.eq_of_mem_replicate hh]
        exact ⟨v, b, hmem, hv, htb⟩
  | case5 item rest result result2 hscan l hget ih =>
    intro res h hgood
    rw [searchLoop_cons_nopush sidx sevIdx ms ent item rest result result2 hscan hget] at h
    refine ih res h ?_
    intro u hu
    rcases sevScan_spec ms (item.ts, item.server, item.line) ent sevIdx result result2 false
        hscan with h2 | ⟨⟨n, h2⟩, v, b, hmem, hv, htb⟩
    · exact hgood u (h2 ▸ hu)
    · rw [h2] at hu
      rcases List.mem_append.mp hu with hh | hh
      · exact hgood u hh
      · rw [List.eq_of_mem_replicate hh]
        exact ⟨v, b, hmem, hv, htb⟩

theorem searchLoop_lower (sidx : List (String × List (Int × Nat)))
    (sevIdx : List (PyVal × List Triple)) (ms ent se : Int)
    (hsort : ∀ s, List.Chain' (fun u v : Int × Nat => u.1 ≤ v.1) (lookupIdx sidx s)) :
    ∀ (heap : List HeapItem) (result : List Triple),
      ∀ res, searchLoop sidx sevIdx ms ent heap result = .ok res →
        (∀ item ∈ heap,
          (lookupIdx sidx item.server)[item.idx]? = some (item.ts, item.line) ∧
            se ≤ item.ts) →
        (∀ u ∈ result, se ≤ u.1) →
        ∀ u ∈ res, se ≤ u.1 := by
  intro heap result
  induction heap, result using searchLoop.induct sidx sevIdx ms ent with
  | case1 result =>
    intro res h hinv hge
    simp only [searchLoop, Except.ok.injEq] at h
    exact h ▸ hge
  | case2 item rest result e hscan =>
    intro res h hinv hge
    simp only [searchLoop, hscan] at h
    exact absurd h (by simp)
  | case3 item rest result result2 hscan =>
    intro res h hinv hge
    simp only [searchLoop, hscan, Except.ok.injEq] at h
    subst h
    intro u hu
    rcases sevScan_mem ms (item.ts, item.server, item.line) ent hscan u hu with hh | hh
    · exact hge u hh
    · rw [hh]
      exact (hinv item (List.mem_cons_self _ _)).2
  | case4 item rest result result2 hscan l next_ts next_line hget ih =>
    intro res h hinv hge
    rw [searchLoop_cons_push sidx sevIdx ms ent item rest result result2 next_ts next_line
      hscan hget] at h
    have hitem := hinv item (List.mem_cons_self _ _)
    have hnext : item.ts ≤ next_ts :=
      chain'_getElem_le (hsort item.server) hitem.1 hget
    refine ih res h ?_ ?_
    · intro z hz
      rcases mem_heapPush.mp hz with hh | hh
      · subst hh
        refine ⟨hget, ?_⟩
        show se ≤ next_ts
        omega
      · exact hinv z (List.mem_cons_of_mem _ hh)
    · intro u hu
      rcases sevScan_mem ms (item.ts, item.server, item.line) ent hscan u hu with hh | hh
      · exact hge u hh
      · rw [hh]
        exact hitem.2
  | case5 item rest result result2 hscan l hget ih =>
    intro res h hinv hge
    rw [searchLoop_cons_nopush sidx sevIdx ms ent item rest result result2 hscan hget] at h
    have hitem := hinv item (List.mem_cons_self _ _)
    refine ih res h ?_ ?_
    · intro z hz
      exact hinv z (List.mem_cons_of_mem _ hz)
    · intro u hu
      rcases sevScan_mem ms (item.ts, item.server, item.line) ent hscan u hu with hh | hh
      · exact hge u hh
      · rw [hh]
        exact hitem.2

theorem mem_of_mem_getLast? {α : Type} {l : List α} {x : α} (h : x ∈ l.getLast?) :
    x ∈ l := by
  rcases List.mem_getLast?_eq_getLast h with ⟨hne, hx⟩
  rw [hx]
  exact List.getLast_mem hne

theorem chain_append_replicate {result : List Triple} {t : Triple} {n : Nat}
    (hc : List.Chain' (fun u v : Triple => u.1 ≤ v.1) result)
    (hlast : ∀ u ∈ result, u.1 ≤ t.1) :
    List.Chain' (fun u v : Triple => u.1 ≤ v.1) (result ++ List.replicate (n + 1) t) := by
  rw [List.chain'_append]
  refine ⟨hc, chain'_replicate (R := fun u v : Triple => u.1 ≤ v.1) (le_refl t.1) (n + 1), ?_⟩
  intro x hx y hy
  have hxm := mem_of_mem_getLast? hx
  have hyt : y = t :=
    List.eq_of_mem_replicate (List.mem_of_mem_head? hy)
  rw [hyt]
  exact hlast x hxm

theorem searchLoop_chain (sidx : List (String × List (Int × Nat)))
    (sevIdx : List (PyVal × List Triple)) (ms ent : Int)
    (hsort : ∀ s, List.Chain' (fun u v : Int × Nat => u.1 ≤ v.1) (lookupIdx sidx s)) :
    ∀ (heap : List HeapItem) (result : List Triple),
      ∀ res, searchLoop sidx sevIdx ms ent heap result = .ok res →
        List.Pairwise (fun a b => heapLeb a b = true) heap →
        (∀ item ∈ heap,
          (lookupIdx sidx item.server)[item.idx]? = some (item.ts, item.line)) →
        (∀ u ∈ result, ∀ item ∈ heap, u.1 ≤ item.ts) →
        List.Chain' (fun u v : Triple => u.1 ≤ v.1) result →
        List.Chain' (fun u v : Triple => u.1 ≤ v.1) res := by
  intro heap result
  induction heap, result using searchLoop.induct sidx sevIdx ms ent with
  | case1 result =>
    intro res h hpw hpt hfront hchain
    simp only [searchLoop, Except.ok.injEq] at h
    exact h ▸ hchain
  | case2 item rest result e hscan =>
    intro res h hpw hpt hfront hchain
    rw [searchLoop_cons_err sidx sevIdx ms ent item rest result e hscan] at h
    exact absurd h (by simp)
  | case3 item rest result result2 hscan =>
    intro res h hpw hpt hfront hchain
    rw [searchLoop_cons_done sidx sevIdx ms ent item rest result result2 hscan] at h
    simp only [Except.ok.injEq] at h
    subst h
    rcases sevScan_spec ms (item.ts, item.server, item.line) ent sevIdx result result2 true
        hscan with h2 | ⟨⟨n, h2⟩, _⟩
    · exact h2 ▸ hchain
    · rw [h2]
      exact chain_append_replicate hchain
        (fun u hu => hfront u hu item (List.mem_cons_self _ _))
  | case4 item rest result result2 hscan l next_ts next_line hget ih =>
    intro res h hpw hpt hfront hchain
    rw [searchLoop_cons_push sidx sevIdx ms ent item rest result result2 next_ts next_line
      hscan hget] at h
    have hitem := hpt item (List.mem_cons_self _ _)
    have hnext : item.ts ≤ next_ts := chain'_getElem_le (hsort item.server) hitem hget
    have hmin : ∀ z ∈ rest, item.ts ≤ z.ts := by
      intro z hz
      exact heapLeb_ts ((List.pairwise_cons.mp hpw).1 z hz)
    have hresult2mem := sevScan_mem ms (item.ts, item.server, item.line) ent hscan
    have hchain2 : List.Chain' (fun u v : Triple => u.1 ≤ v.1) result2 := by
      rcases sevScan_spec ms (item.ts, item.server, item.line) ent sevIdx result result2
          false hscan with h2 | ⟨⟨n, h2⟩, _⟩
      · exact h2 ▸ hchain
      · rw [h2]
        exact chain_append_replicate hchain
          (fun u hu => hfront u hu item (List.mem_cons_self _ _))
    refine ih res h (pairwise_heapPush (List.pairwise_cons.mp hpw).2) ?_ ?_ hchain2
    · intro z hz
      rcases mem_heapPush.mp hz with hh | hh
      · subst hh
        exact hget
      · exact hpt z (List.mem_cons_of_mem _ hh)
    · intro u hu z hz
      rcases mem_heapPush.mp hz with hh | hh
      · subst hh
        show u.1 ≤ next_ts
        rcases hresult2mem u hu with hh2 | hh2
        · have := hfront u hh2 item (List.mem_cons_self _ _)
          omega
        · rw [hh2]
          show item.ts ≤ next_ts
          omega
      · rcases hresult2mem u hu with hh2 | hh2
        · exact hfront u hh2 z (List.mem_cons_of_mem _ hh)
        · rw [hh2]
          show item.ts ≤ z.ts
          exact hmin z hh
  | case5 item rest result result2 hscan l hget ih =>
    intro res h hpw hpt hfront hchain
    rw [searchLoop_cons_nopush sidx sevIdx ms ent item rest result result2 hscan hget] at h
    have hmin : ∀ z ∈ rest, item.ts ≤ z.ts := by
      intro z hz
      exact heapLeb_ts ((List.pairwise_cons.mp hpw).1 z hz)
    have hresult2mem := sevScan_mem ms (item.ts, item.server, item.line) ent hscan
    have hchain2 : List.Chain' (fun u v : Triple => u.1 ≤ v.1) result2 := by
      rcases sevScan_spec ms (item.ts, item.server, item.line) ent sevIdx result result2
          false hscan with h2 | ⟨⟨n, h2⟩, _⟩
      · exact h2 ▸ hchain
      · rw [h2]
        exact chain_append_replicate hchain
          (fun u hu => hfront u hu item (List.mem_cons_self _ _))
    refine ih res h (List.pairwise_cons.mp hpw).2 ?_ ?_ hchain2
    · intro z hz
      exact hpt z (List.mem_cons_of_mem _ hz)
    · intro u hu z hz
      rcases hresult2mem u hu with hh2 | hh2
      · exact hfront u hh2 z (List.mem_cons_of_mem _ hz)
      · rw [hh2]
        show item.ts ≤ z.ts
        exact hmin z hz

/-! Preservation of the index invariants by the lazy indexing. -/

theorem mem_add_to_severity_index {epoch : Int} {sev : PyVal} {server : String} {ln : Nat}
    {idx idx2 : List (PyVal × List Triple)} {k : PyVal} {b : List Triple}
    (heq : add_to_severity_index epoch sev server ln idx = .ok idx2)
    (h : (k, b) ∈ idx2) :
    ∀ t ∈ b, (∃ b0, (k, b0) ∈ idx ∧ t ∈ b0) ∨ (k = sev ∧ t = (epoch, server, ln)) := by
  intro t ht
  by_cases hh : sev.hashable = true
  · rw [add_to_severity_index_ok hh] at heq
    injection heq with h1
    rw [← h1] at h
    cases hl : lookup? sev idx with
    | some bucket =>
      rw [hl] at h
      rcases mem_updateVal h with h2 | ⟨h2, b0, h3, h4⟩
      · exact Or.inl ⟨b, h2, ht⟩
      · simp only at h2 h4
        rw [h4] at ht
        rcases mem_sortedKeyAdd.mp ht with h5 | h5
        · exact Or.inr ⟨h2, h5⟩
        · exact Or.inl ⟨b0, by rw [h2]; exact h3, h5⟩
    | none =>
      rw [hl] at h
      rcases List.mem_append.mp h with h2 | h2
      · exact Or.inl ⟨b, h2, ht⟩
      · simp only [List.mem_singleton, Prod.mk.injEq] at h2
        rw [h2.2] at ht
        simp only [List.mem_singleton] at ht
        exact Or.inr ⟨h2.1, ht⟩
  · rw [add_to_severity_index_err hh] at heq
    exact absurd heq (by simp)

theorem indexLines_sevWF (env : String → List String) (stp : String → Option Int)
    (server rem : String) :
    ∀ (n : Nat) (lines : List String) (st : LogQueryState),
      lookup? server st.server_to_remote_file = some rem →
      1 ≤ n →
      lines = (env (get_remote_file rem)).drop (n - 1) →
      sevIdxWF env stp st →
      sevIdxWF env stp (indexLines stp server n lines st).1 := by
  intro n lines
  induction lines generalizing n with
  | nil => intro st _ _ _ hwf; exact hwf
  | cons line rest ih =>
    intro st hcfg hn hlines hwf
    cases hm : get_line_metadata stp line with
    | error e =>
      rw [indexLines_cons_err hm]
      exact hwf
    | ok m =>
      rcases m with ⟨epoch, sev⟩
      obtain ⟨hget, hrest⟩ := drop_cons hlines.symm
      have hn2 : n - 1 + 1 = n := by omega
      rw [hn2] at hrest
      cases hadd : add_to_severity_index epoch sev server n st.severity_index with
      | error e =>
        rw [indexLines_cons_sev_err hm hadd]
        exact hwf
      | ok sidx =>
        rw [indexLines_cons_ok hm hadd]
        refine ih (n + 1) _ (by simpa using hcfg) (by omega) (by simpa using hrest) ?_
        intro p hp t ht
        simp only at hp
        rcases p with ⟨k, b⟩
        rcases mem_add_to_severity_index hadd hp t ht with ⟨b0, hb0, htb0⟩ | ⟨hk, htv⟩
        · exact hwf (k, b0) hb0 t htb0
        · subst hk
          subst htv
          unfold sevEntryWF lineMetaAt
          simp only [hcfg, hget, hm]
          rfl

theorem add_server_log_sevWF (env : String → List String) (stp : String → Option Int)
    (st : LogQueryState) (server : String) (hwf : sevIdxWF env stp st) :
    sevIdxWF env stp (add_server_log_to_index env stp st server).1 := by
  cases hc : lookup? server st.server_to_remote_file with
  | none => simpa [add_server_log_to_index, hc] using hwf
  | some rem =>
    rcases hres : add_to_index env stp
        { st with server_index := dictSet server [] st.server_index } server
        (get_remote_file rem) with ⟨st2, e?⟩
    have hwf2 : sevIdxWF env stp st2 := by
      have hstep : sevIdxWF env stp (add_to_index env stp
          { st with server_index := dictSet server [] st.server_index } server
          (get_remote_file rem)).1 := by
        unfold add_to_index
        split
        · exact indexLines_sevWF env stp server rem 1 _ _ (by simpa using hc) (by omega)
            (by simp) hwf
        · exact indexLines_sevWF env stp server rem 1 _ _ (by simpa using hc) (by omega)
            (by simp) hwf
      rw [hres] at hstep
      exact hstep
    cases e? with
    | some e => simpa [add_server_log_to_index, hc, hres] using hwf2
    | none =>
      simp only [add_server_log_to_index, hc, hres]
      exact fun p hp t ht => hwf2 p hp t ht

theorem ensureIndexed_sevWF (env : String → List String) (stp : String → Option Int) :
    ∀ (servers : List String) (st : LogQueryState), sevIdxWF env stp st →
      sevIdxWF env stp (ensureIndexed env stp servers st).1 := by
  intro servers
  induction servers with
  | nil => intro st hwf; exact hwf
  | cons server rest ih =>
    intro st hwf
    by_cases hguard : (lookup? server st.server_to_local_file).isSome
    · simp only [ensureIndexed, hguard, if_true]
      exact ih st hwf
    · rcases hres : add_server_log_to_index env stp st server with ⟨st2, ev, e?⟩
      have hwf2 : sevIdxWF env stp st2 := by
        have := add_server_log_sevWF env stp st server hwf
        rw [hres] at this
        exact this
      cases e? with
      | none =>
        simp only [ensureIndexed, hguard, hres, if_false, Bool.false_eq_true]
        exact ih st2 hwf2
      | some e =>
        simp only [ensureIndexed, hguard, hres, if_false, Bool.false_eq_true]
        exact hwf2

theorem mem_add_to_server_index {epoch : Int} {server : String} {ln : Nat}
    {idx : List (String × List (Int × Nat))} {p : String × List (Int × Nat)}
    (h : p ∈ add_to_server_index epoch server ln idx) :
    p ∈ idx ∨ ∃ l0, (server, l0) ∈ idx ∧
      p.2 = sortedKeyAdd (fun q => q.1) (epoch, ln) l0 := by
  unfold add_to_server_index at h
  rcases mem_updateVal h with h2 | ⟨h2, l0, h3, h4⟩
  · exact Or.inl h2
  · exact Or.inr ⟨l0, h3, h4⟩

theorem indexLines_sorted (stp : String → Option Int) (server : String) :
    ∀ (n : Nat) (lines : List String) (st : LogQueryState),
      serverIdxSorted st → serverIdxSorted (indexLines stp server n lines st).1 := by
  intro n lines
  induction lines generalizing n with
  | nil => intro st hs; exact hs
  | cons line rest ih =>
    intro st hs
    cases hm : get_line_metadata stp line with
    | error e =>
      rw [indexLines_cons_err hm]
      exact hs
    | ok m =>
      rcases m with ⟨epoch, sev⟩
      have hstep : serverIdxSorted
          { st with server_index := add_to_server_index epoch server n st.server_index } := by
        intro p hp
        simp only at hp
        rcases mem_add_to_server_index hp with h2 | ⟨l0, h3, h4⟩
        · exact hs p h2
        · rw [h4]
          exact chain'_sortedKeyAdd (hs (server, l0) h3)
      cases hadd : add_to_severity_index epoch sev server n st.severity_index with
      | error e =>
        rw [indexLines_cons_sev_err hm hadd]
        exact hstep
      | ok sidx =>
        rw [indexLines_cons_ok hm hadd]
        refine ih (n + 1) _ ?_
        intro p hp
        simp only at hp
        exact hstep p hp

theorem add_server_log_sorted (env : String → List String) (stp : String → Option Int)
    (st : LogQueryState) (server : String) (hs : serverIdxSorted st) :
    serverIdxSorted (add_server_log_to_index env stp st server).1 := by
  cases hc : lookup? server st.server_to_remote_file with
  | none => simpa [add_server_log_to_index, hc] using hs
  | some rem =>
    have hs1 : serverIdxSorted
        { st with server_index := dictSet server [] st.server_index } := by
      intro p hp
      simp only at hp
      rcases mem_dictSet hp with h2 | h2
      · exact hs p h2
      · rw [h2]
        simp
    rcases hres : add_to_index env stp
        { st with server_index := dictSet server [] st.server_index } server
        (get_remote_file rem) with ⟨st2, e?⟩
    have hs2 : serverIdxSorted st2 := by
      have hstep : serverIdxSorted (add_to_index env stp
          { st with server_index := dictSet server [] st.server_index } server
          (get_remote_file rem)).1 := by
        unfold add_to_index
        split
        · exact indexLines_sorted stp server 1 _ _ hs1
        · refine indexLines_sorted stp server 1 _ _ ?_
          intro p hp
          simp only at hp
          rcases mem_dictSet hp with h2 | h2
          · exact hs1 p h2
          · rw [h2]
            simp
      rw [hres] at hstep
      exact hstep
    cases e? with
    | some e => simpa [add_server_log_to_index, hc, hres] using hs2
    | none =>
      simp only [add_server_log_to_index, hc, hres]
      exact fun p hp => hs2 p hp

theorem ensureIndexed_sorted (env : String → List String) (stp : String → Option Int) :
    ∀ (servers : List String) (st : LogQueryState), serverIdxSorted st →
      serverIdxSorted (ensureIndexed env stp servers st).1 := by
  intro servers
  induction servers with
  | nil => intro st hs; exact hs
  | cons server rest ih =>
    intro st hs
    by_cases hguard : (lookup? server st.server_to_local_file).isSome
    · simp only [ensureIndexed, hguard, if_true]
      exact ih st hs
    · rcases hres : add_server_log_to_index env stp st server with ⟨st2, ev, e?⟩
      have hs2 : serverIdxSorted st2 := by
        have := add_server_log_sorted env stp st server hs
        rw [hres] at this
        exact this
      cases e? with
      | none =>
        simp only [ensureIndexed, hguard, hres, if_false, Bool.false_eq_true]
        exact ih st2 hs2
      | some e =>
        simp only [ensureIndexed, hguard, hres, if_false, Bool.false_eq_true]
        exact hs2

/-- C6: every matched entry of a successful consumed query comes from a
log line whose severity value is an integer at least the requested
`min_severity` — no line below the threshold is returned.  The
hypothesis is the severity-index faithfulness invariant, which holds of
a freshly constructed engine (the index is empty) and is preserved by
the lazy indexing (`ensureIndexed_sevWF`). -/
theorem c6_severity_filter (env : String → List String) (stp : String → Option Int)
    (st : LogQueryState) (a : QueryArgs) (r : List Triple)
    (hwf : sevIdxWF env stp st)
    (hrun : (runQuery env stp st a).2.2 = .ok r) :
    ∀ t ∈ r, ∃ v : Int,
      lineMetaAt env stp st.server_to_remote_file t.2.1 t.2.2 = some (t.1, .int v) ∧
      a.min_severity ≤ v := by
  rcases hens : ensureIndexed env stp a.servers st with ⟨st2, ev, e?⟩
  cases e? with
  | some e => simp [runQuery, hens] at hrun
  | none =>
    simp only [runQuery, hens] at hrun
    have hwf2 : sevIdxWF env stp st2 := by
      have := ensureIndexed_sevWF env stp a.servers st hwf
      rw [hens] at this
      exact this
    have hcfg : st2.server_to_remote_file = st.server_to_remote_file := by
      have := ensureIndexed_cfg env stp a.servers st
      rw [hens] at this
      exact this
    unfold search at hrun
    cases hseed : seedHeap st2.server_index (to_epoch_seconds a.start) a.servers [] with
    | error e =>
      simp only [hseed] at hrun
      exact absurd hrun (by simp)
    | ok heap =>
      simp only [hseed] at hrun
      intro t ht
      rcases searchLoop_mem st2.server_index st2.severity_index a.min_severity a.entries
          heap [] r hrun (by simp) t ht with ⟨v, b, hvb, hv, htb⟩
      have hent := hwf2 (PyVal.int v, b) hvb t htb
      unfold sevEntryWF at hent
      rw [hcfg] at hent
      exact ⟨v, hent, hv⟩

/-- C6 witness: the invariant theorem applied to a fresh engine, a
single-server query matching one WARNING line at `min_severity = 20`,
and the matched entry `(1610884803, "s2", 1)`. -/
theorem c6_witness :
    ∃ v : Int,
      lineMetaAt env0 stp0 (initState cfg0).server_to_remote_file "s2" 1
          = some (1610884803, .int v) ∧
      (⟨1610884800, 10, ["s2"], 20⟩ : QueryArgs).min_severity ≤ v := by
  refine c6_severity_filter env0 stp0 (initState cfg0) ⟨1610884800, 10, ["s2"], 20⟩
    [((1610884803 : Int), "s2", (1 : Nat))] ?_ ?_ ((1610884803 : Int), "s2", (1 : Nat))
    (by decide)
  · intro p hp t ht
    simp [initState] at hp
  · show search ⟨[("s1", "s1.log"), ("s2", "s2.log")], [("s2", "temp/s2.log")],
        [("s2", [(1610884803, 1)])], [(PyVal.int 30, [(1610884803, "s2", 1)])]⟩
        ["s2"] 20 1610884800 10 = Except.ok [(1610884803, "s2", 1)]
    unfold search
    have hseed : seedHeap [("s2", [((1610884803 : Int), (1 : Nat))])] 1610884800 ["s2"] []
        = .ok [⟨1610884803, "s2", 1, 0⟩] := by decide
    simp only [hseed]
    rw [searchLoop_cons_nopush [("s2", [(1610884803, 1)])]
      [(PyVal.int 30, [(1610884803, "s2", 1)])] 20 10 ⟨1610884803, "s2", 1, 0⟩ [] []
      [(1610884803, "s2", 1)] (by decide) (by decide)]
    simp only [searchLoop]

/-- C7: every matched entry of a successful consumed query has a
timestamp at least the requested start time (in epoch seconds).  The
hypothesis is the sortedness of the per-server indexes, which holds of a
freshly constructed engine and is preserved by the lazy indexing
(`ensureIndexed_sorted`). -/
theorem c7_start_epoch (env : String → List String) (stp : String → Option Int)
    (st : LogQueryState) (a : QueryArgs) (r : List Triple)
    (hsorted : serverIdxSorted st)
    (hrun : (runQuery env stp st a).2.2 = .ok r) :
    ∀ t ∈ r, to_epoch_seconds a.start ≤ t.1 := by
  rcases hens : ensureIndexed env stp a.servers st with ⟨st2, ev, e?⟩
  cases e? with
  | some e => simp [runQuery, hens] at hrun
  | none =>
    simp only [runQuery, hens] at hrun
    have hsorted2 : serverIdxSorted st2 := by
      have := ensureIndexed_sorted env stp a.servers st hsorted
      rw [hens] at this
      exact this
    have hsort : ∀ s, List.Chain' (fun u v : Int × Nat => u.1 ≤ v.1)
        (lookupIdx st2.server_index s) := by
      intro s
      unfold lookupIdx
      cases hl : lookup? s st2.server_index with
      | none => simp
      | some l =>
        simpa using hsorted2 (s, l) (lookup?_mem hl)
    unfold search at hrun
    cases hseed : seedHeap st2.server_index (to_epoch_seconds a.start) a.servers [] with
    | error e =>
      simp only [hseed] at hrun
      exact absurd hrun (by simp)
    | ok heap =>
      simp only [hseed] at hrun
      have hinv := seedHeap_inv st2.server_index (to_epoch_seconds a.start) a.servers []
        heap hseed (by simp)
      exact searchLoop_lower st2.server_index st2.severity_index a.min_severity a.entries
        (to_epoch_seconds a.start) hsort heap [] r hrun hinv (by simp)

/-- C7 witness: the theorem applied to a fresh engine, a single-server
query, and its one matched entry, whose timestamp is at or after the
start epoch. -/
theorem c7_witness :
    to_epoch_seconds (⟨1610884800, 10, ["s2"], 20⟩ : QueryArgs).start ≤ (1610884803 : Int) := by
  refine c7_start_epoch env0 stp0 (initState cfg0) ⟨1610884800, 10, ["s2"], 20⟩
    [((1610884803 : Int), "s2", (1 : Nat))] ?_ ?_ ((1610884803 : Int), "s2", (1 : Nat))
    (by decide)
  · intro p hp
    simp [initState] at hp
  · show search ⟨[("s1", "s1.log"), ("s2", "s2.log")], [("s2", "temp/s2.log")],
        [("s2", [(1610884803, 1)])], [(PyVal.int 30, [(1610884803, "s2", 1)])]⟩
        ["s2"] 20 1610884800 10 = Except.ok [(1610884803, "s2", 1)]
    unfold search
    have hseed : seedHeap [("s2", [((1610884803 : Int), (1 : Nat))])] 1610884800 ["s2"] []
        = .ok [⟨1610884803, "s2", 1, 0⟩] := by decide
    simp only [hseed]
    rw [searchLoop_cons_nopush [("s2", [(1610884803, 1)])]
      [(PyVal.int 30, [(1610884803, "s2", 1)])] 20 10 ⟨1610884803, "s2", 1, 0⟩ [] []
      [(1610884803, "s2", 1)] (by decide) (by decide)]
    simp only [searchLoop]

/-- C8: the matched entries of a successful consumed query are
non-decreasing by timestamp: the merge pops the minimum heap tuple, the
per-server indexes are sorted, and each pushed successor has a timestamp
at least the popped one.  Ties are broken by the deterministic Python
tuple order `(timestamp, server, line_number, idx)` of the heap items.
The hypothesis is the sortedness of the per-server indexes, which holds
of a freshly constructed engine and is preserved by the lazy indexing;
in particular it covers every engine whose sources have non-decreasing
timestamps in file order (the `SortedList` index sorts them in any
case). -/
theorem c8_result_ordered (env : String → List String) (stp : String → Option Int)
    (st : LogQueryState) (a : QueryArgs) (r : List Triple)
    (hsorted : serverIdxSorted st)
    (hrun : (runQuery env stp st a).2.2 = .ok r) :
    List.Chain' (fun u v : Triple => u.1 ≤ v.1) r := by
  rcases hens : ensureIndexed env stp a.servers st with ⟨st2, ev, e?⟩
  cases e? with
  | some e => simp [runQuery, hens] at hrun
  | none =>
    simp only [runQuery, hens] at hrun
    have hsorted2 : serverIdxSorted st2 := by
      have := ensureIndexed_sorted env stp a.servers st hsorted
      rw [hens] at this
      exact this
    have hsort : ∀ s, List.Chain' (fun u v : Int × Nat => u.1 ≤ v.1)
        (lookupIdx st2.server_index s) := by
      intro s
      unfold lookupIdx
      cases hl : lookup? s st2.server_index with
      | none => simp
      | some l =>
        simpa using hsorted2 (s, l) (lookup?_mem hl)
    unfold search at hrun
    cases hseed : seedHeap st2.server_index (to_epoch_seconds a.start) a.servers [] with
    | error e =>
      simp only [hseed] at hrun
      exact absurd hrun (by simp)
    | ok heap =>
      simp only [hseed] at hrun
      have hinv := seedHeap_inv st2.server_index (to_epoch_seconds a.start) a.servers []
        heap hseed (by simp)
      have hpw := seedHeap_pairwise st2.server_index (to_epoch_seconds a.start) a.servers []
        heap hseed (by simp)
      exact searchLoop_chain st2.server_index st2.severity_index a.min_severity a.entries
        hsort heap [] r hrun hpw (fun item hitem => (hinv item hitem).1) (by simp) (by simp)

/-- C8 witness: the theorem applied to a fresh engine and a
single-server query over a two-line file; both matched entries come back
in non-decreasing timestamp order. -/
theorem c8_witness :
    List.Chain' (fun u v : Triple => u.1 ≤ v.1)
      [((1610884800 : Int), "s1", (1 : Nat)), (1610884805, "s1", 2)] := by
  refine c8_result_ordered env0 stp0 (initState cfg0) ⟨1610884800, 10, ["s1"], 20⟩ _ ?_ ?_
  · intro p hp
    simp [initState] at hp
  · show search ⟨[("s1", "s1.log"), ("s2", "s2.log")], [("s1", "temp/s1.log")],
        [("s1", [(1610884800, 1), (1610884805, 2)])],
        [(PyVal.int 20, [(1610884800, "s1", 1)]), (PyVal.int 40, [(1610884805, "s1", 2)])]⟩
        ["s1"] 20 1610884800 10
        = Except.ok [(1610884800, "s1", 1), (1610884805, "s1", 2)]
    unfold search
    have hseed : seedHeap [("s1", [((1610884800 : Int), (1 : Nat)), (1610884805, 2)])]
        1610884800 ["s1"] [] = .ok [⟨1610884800, "s1", 1, 0⟩] := by decide
    simp only [hseed]
    rw [searchLoop_cons_push [("s1", [(1610884800, 1), (1610884805, 2)])]
      [(PyVal.int 20, [(1610884800, "s1", 1)]), (PyVal.int 40, [(1610884805, "s1", 2)])]
      20 10 ⟨1610884800, "s1", 1, 0⟩ [] [] [(1610884800, "s1", 1)] 1610884805 2
      (by decide) (by decide)]
    have hpush : heapPush (⟨1610884805, "s1", 2, 1⟩ : HeapItem) []
        = [⟨1610884805, "s1", 2, 1⟩] := by decide
    rw [hpush]
    rw [searchLoop_cons_nopush [("s1", [(1610884800, 1), (1610884805, 2)])]
      [(PyVal.int 20, [(1610884800, "s1", 1)]), (PyVal.int 40, [(1610884805, "s1", 2)])]
      20 10 ⟨1610884805, "s1", 2, 1⟩ [] [(1610884800, "s1", 1)]
      [(1610884800, "s1", 1), (1610884805, "s1", 2)] (by decide) (by decide)]
    simp only [searchLoop]

end LogQueryVerif
